import Mathlib

/-!
Verification development for the `ts-ast` project summarizer (`src/index.ts`).

The TypeScript source converts a project (tsconfig + source files) into a
hierarchical `TreeNode` summary.  Here the relevant parts of that source are
embedded shallowly in Lean: the TypeScript compiler API (`ts.createProgram`,
`ts.forEachChild`, `ts.readConfigFile`, `ts.parseJsonConfigFileContent`,
`glob.sync`, `path.relative`) is treated as a black-box collaborator, exactly
as the specification declares, and everything the repository itself computes
(node classification, noise filtering, recursive tree construction, directory
reconstruction, import extraction, batching, the project-graph walk) is
translated definition by definition.
-/

namespace TsAst

/-- Syntax-node kinds of the TypeScript AST that the source mentions, plus an
open-ended `other` constructor standing for every remaining member of the
`ts.SyntaxKind` enumeration (identified there by its numeric code). -/
inductive TsKind where
  | endOfFileToken
  | importDeclaration
  | typeAliasDeclaration
  | decorator
  | identifier
  | indexSignature
  | exportKeyword
  | defaultKeyword
  | heritageClause
  | propertyDeclaration
  | declareKeyword
  | propertySignature
  | typeParameter
  | exportAssignment
  | moduleDeclaration
  | moduleBlock
  | classDeclaration
  | interfaceDeclaration
  | whileStatement
  | forInStatement
  | forOfStatement
  | forStatement
  | expressionStatement
  | callExpression
  | functionExpression
  | arrowFunction
  | functionDeclaration
  | block
  | sourceFile
  | constructorDeclaration
  | methodDeclaration
  | methodSignature
  | stringLiteral
  | variableStatement
  | ifStatement
  | callSignature
  | enumDeclaration
  | other (code : Nat)
deriving DecidableEq, Repr

/-- Output node types (`NodeType` in the source).  The source stores the type
as a string; the eleven named constructors stand for the eleven members of the
declared union, and `synthetic k` stands for the fallback label
`ts.SyntaxKind[node.kind] + ':' + node.kind` produced by `getNodeTypeName` for
an unrecognized node (such a label always contains a colon, so it never
collides with the eleven fixed strings). -/
inductive NodeType where
  | program
  | dir
  | file
  | module
  | moduleBlock
  | class_
  | interface
  | ctor
  | method
  | function_
  | text
  | synthetic (kind : TsKind)
deriving DecidableEq, Repr

/-- The fixed enumeration of output node types from the spec:
`program | dir | file | module | module-block | class | interface |
constructor | method | function | text`. -/
def FIXED_NODE_TYPES : List NodeType :=
  [.program, .dir, .file, .module, .moduleBlock, .class_, .interface,
   .ctor, .method, .function_, .text]

/-- `TreeNode` of the source: `{name, type, size?, deps?, children?}`.  Every
node the source constructs carries a concrete `children` array, so `children`
is a plain list; `size` and `deps` really are optional. -/
inductive TreeNode where
  | mk (name : String) (type : NodeType) (size : Option Nat)
       (deps : Option (List String)) (children : List TreeNode)

def TreeNode.name : TreeNode → String
  | .mk n _ _ _ _ => n

def TreeNode.type : TreeNode → NodeType
  | .mk _ t _ _ _ => t

def TreeNode.size : TreeNode → Option Nat
  | .mk _ _ s _ _ => s

def TreeNode.deps : TreeNode → Option (List String)
  | .mk _ _ _ d _ => d

def TreeNode.children : TreeNode → List TreeNode
  | .mk _ _ _ _ c => c

/-- Replace the children list of a node (models in-place mutation of
`tree.children`). -/
def TreeNode.withChildren : TreeNode → List TreeNode → TreeNode
  | .mk n t s d _, c => .mk n t s d c

/-- Models `tree.children!.push(node)`. -/
def pushChild (tree node : TreeNode) : TreeNode :=
  tree.withChildren (tree.children ++ [node])

/-- A raw TypeScript syntax node, as the black-box compiler hands it to the
summarizer.  `ident` is the text of the node's name-like payload: `fileName`
for a source file, `name.getText(file)` / `name.text` for declarations, the
literal text for a string literal; `""` when the name is absent (e.g. an
anonymous default-exported function).  `fullLen` is
`node.getFullText(file).length`.  `modSpec` is `(kind, text)` of the
`moduleSpecifier` of an import declaration.  `resolved` is the compiler's
per-file `resolvedModules` map (specifier text to `resolvedFileName`).
`children` is the list `ts.forEachChild` iterates over, in source order. -/
inductive TsNode where
  | mk (kind : TsKind) (ident : String) (fullLen : Nat)
       (modSpec : Option (TsKind × String))
       (resolved : List (String × String))
       (children : List TsNode)

def TsNode.kind : TsNode → TsKind
  | .mk k _ _ _ _ _ => k

def TsNode.ident : TsNode → String
  | .mk _ i _ _ _ _ => i

def TsNode.fullLen : TsNode → Nat
  | .mk _ _ l _ _ _ => l

def TsNode.modSpec : TsNode → Option (TsKind × String)
  | .mk _ _ _ m _ _ => m

def TsNode.resolved : TsNode → List (String × String)
  | .mk _ _ _ _ r _ => r

def TsNode.children : TsNode → List TsNode
  | .mk _ _ _ _ _ c => c

/-- `EXCLUDED_TSNODES` of `src/index.ts` (lines 15-30), verbatim. -/
def EXCLUDED_TSNODES : List TsKind :=
  [.endOfFileToken, .importDeclaration, .typeAliasDeclaration, .decorator,
   .identifier, .indexSignature, .exportKeyword, .defaultKeyword,
   .heritageClause, .propertyDeclaration, .declareKeyword,
   .propertySignature, .typeParameter, .exportAssignment]

/-- `COMPOSITE_TSNODES` of `src/index.ts` (lines 32-37). -/
def COMPOSITE_TSNODES : List TsKind :=
  [.moduleDeclaration, .moduleBlock, .classDeclaration, .interfaceDeclaration]

/-- `EXTRA_COMPOSITE_NODES` of `src/index.ts` (lines 39-50). -/
def EXTRA_COMPOSITE_NODES : List TsKind :=
  [.whileStatement, .forInStatement, .forOfStatement, .forStatement,
   .expressionStatement, .callExpression, .functionExpression,
   .arrowFunction, .functionDeclaration, .block]

/-- Modelled from the spec: the noise set of section 4.4 — "end-of-file
markers, import/type-alias declarations, plain statements/expressions,
decorators, bare identifiers, index/property signatures, modifier keywords,
heritage clauses, property declarations, type parameters, conditional
statements, export assignments, call signatures".  It is the code's
`EXCLUDED_TSNODES` plus variable statements, expression statements,
conditional (`if`) statements and call signatures (which the earlier snapshot
of the source excluded but `src/index.ts` does not). -/
def SPEC_NOISE_SET : List TsKind :=
  EXCLUDED_TSNODES ++
  [.variableStatement, .expressionStatement, .ifStatement, .callSignature]

/-- `BATCH_FILES` of `src/index.ts` (line 13). -/
def BATCH_FILES : Nat := 256

/-- The command-line arguments record (`CommandLineArgs` in the source).  The
source keeps it in a module-level `cargs`; here it is threaded explicitly. -/
structure Cargs where
  debug : Bool
  project : String
  expandFunctions : Bool
  addUnnamedLeafs : Bool

/-! ### Character-list models of the JavaScript string operations used -/

/-- Models JavaScript `s.split('/')` on the character list of `s`:
`splitChar []` is `[[]]` (as `"".split('/')` is `[""]`), and a separator
always opens a new (possibly empty) segment. -/
def splitChar : List Char → List (List Char)
  | [] => [[]]
  | c :: cs =>
    let r := splitChar cs
    if c = '/' then [] :: r
    else
      match r with
      | [] => [[c]]
      | h :: t => (c :: h) :: t

/-- Splits a character list at the first `'/'`:
`none` when there is none (JavaScript `indexOf('/') < 0`), otherwise
`some (before, after)` — `before` is `relpath.slice(0, i)` and `after` is
`relpath.slice(i + 1)`. -/
def splitFirstSlash : List Char → Option (List Char × List Char)
  | [] => none
  | c :: cs =>
    if c = '/' then some ([], cs)
    else
      match splitFirstSlash cs with
      | none => none
      | some (a, b) => some (c :: a, b)

/-- Models JavaScript `s.replace(pat, '')` for a plain-string pattern: remove
the first occurrence of `pat`, if any. -/
def removeFirstOcc (pat : List Char) : List Char → List Char
  | [] => []
  | c :: cs =>
    if pat.isPrefixOf (c :: cs) then (c :: cs).drop pat.length
    else c :: removeFirstOcc pat cs

/-- Models the regular-expression test `/\/node_modules\//.test(s)`: does
`pat` occur as a contiguous substring of `s`? -/
def containsSub (pat : List Char) : List Char → Bool
  | [] => pat.isPrefixOf []
  | c :: cs => pat.isPrefixOf (c :: cs) || containsSub pat cs

/-- Joins segments with `'/'` (inverse of `splitChar`). -/
def joinChar : List (List Char) → List Char
  | [] => []
  | [s] => s
  | s :: t :: rest => s ++ '/' :: joinChar (t :: rest)

/-- Joins path segments (strings) with `"/"`. -/
def joinSegs (segs : List String) : String :=
  String.mk (joinChar (segs.map String.toList))

/-- Models Node's `path.relative(fromPath, toPath)` for the absolute paths it
is applied to: drop the shared leading segments, then climb with `..` for each
remaining segment of `fromPath` and descend into the rest of `toPath`.  (An
external library routine; no claim depends on its exact output.) -/
def pathRelativeSegs : List (List Char) → List (List Char) → List (List Char)
  | f :: fs, t :: ts => if f = t then pathRelativeSegs fs ts
                        else (f :: fs).map (fun _ => ['.', '.']) ++ t :: ts
  | [], ts => ts
  | fs, [] => fs.map (fun _ => ['.', '.'])

/-- Models Node's `path.relative` on strings. -/
def pathRelative (fromP toP : String) : String :=
  String.mk (joinChar (pathRelativeSegs
    ((splitChar fromP.toList).filter (· ≠ []))
    ((splitChar toP.toList).filter (· ≠ []))))

/-- Models `relpath.split('/').slice(-1)[0]` (`split` never yields an empty
array, so this is the last split segment). -/
def lastSplitSeg (s : String) : String :=
  String.mk ((splitChar s.toList).getLastD [])

/-! ### Node classification (`getNodeTypeName`, `getNodeSize`, …) -/

/-- `getNodeTypeName` of `src/index.ts` (lines 260-282).  The cascade of
`ts.isX(node)` predicates is a dispatch on `node.kind`; each predicate holds
exactly for its kind, so the cascade is this match.  The final arm models
`[(ts.SyntaxKind[node.kind] + ':' + node.kind) as any, '']`.  A missing name
(`node.name?.text` being `undefined` for anonymous functions/classes) is
modelled by `ident = ""`, which is falsy exactly like `undefined` wherever the
result is consumed. -/
def getNodeTypeName (n : TsNode) : NodeType × String :=
  match n.kind with
  | .sourceFile => (.file, n.ident)
  | .constructorDeclaration => (.ctor, "")
  | .methodDeclaration => (.method, n.ident)
  | .functionDeclaration => (.function_, n.ident)
  | .interfaceDeclaration => (.interface, n.ident)
  | .classDeclaration => (.class_, n.ident)
  | .moduleDeclaration => (.module, n.ident)
  | .moduleBlock => (.moduleBlock, "")
  | .methodSignature => (.method, n.ident)
  | .stringLiteral => (.text, n.ident)
  | k => (.synthetic k, "")

/-- `getNodeSize` of `src/index.ts` (lines 284-286):
`node.getFullText(file).length`. -/
def getNodeSize (n : TsNode) : Nat := n.fullLen

/-- `getNodeSummary` of `src/index.ts` (lines 254-258). -/
def getNodeSummary (n : TsNode) : NodeType × String × Nat :=
  let tn := getNodeTypeName n
  (tn.1, tn.2, getNodeSize n)

/-- `isComposite` of `src/index.ts` (lines 184-192). -/
def isComposite (c : Cargs) (n : TsNode) : Bool :=
  COMPOSITE_TSNODES.contains n.kind ||
  (c.expandFunctions && EXTRA_COMPOSITE_NODES.contains n.kind)

mutual

/-- `inspectSubNodes` of `src/index.ts` (lines 194-210): iterate the direct
children of `root`, skip excluded kinds entirely, classify the rest, recurse
into composites, and keep a node when it has a name, is composite, or
`--add-unnamed-leafs` is on. -/
def inspectSubNodes (c : Cargs) : TsNode → List TreeNode
  | .mk _ _ _ _ _ ch => inspectChildList c ch

/-- The body of the `ts.forEachChild` callback in `inspectSubNodes`, folded
over the child list with the accumulated `treenodes` array. -/
def inspectChildList (c : Cargs) : List TsNode → List TreeNode
  | [] => []
  | node :: rest =>
    (if EXCLUDED_TSNODES.contains node.kind then []
     else
       let tn := getNodeTypeName node
       let size := getNodeSize node
       let deep := isComposite c node
       let children := if deep then inspectSubNodes c node else []
       if tn.2 ≠ "" || deep || c.addUnnamedLeafs then
         [TreeNode.mk tn.2 tn.1 (some size) none children]
       else []) ++
    inspectChildList c rest

end

/-- `getImports` of `src/index.ts` (lines 294-314): for each direct child that
is an import declaration whose module specifier is a string literal and whose
specifier resolves (to a truthy, i.e. nonempty, file name) in the file's
`resolvedModules` map, record the resolved target relative to
`cargs.project`. -/
def getImports (c : Cargs) (file : TsNode) : List String :=
  file.children.filterMap fun node =>
    if node.kind = TsKind.importDeclaration then
      match node.modSpec with
      | some (k, importPath) =>
        if k = TsKind.stringLiteral then
          match file.resolved.lookup importPath with
          | some fullPath =>
            if fullPath = "" then none
            else some (pathRelative c.project fullPath)
          | none => none
        else none
      | none => none
    else none

/-- `getNodeDeps` of `src/index.ts` (lines 288-292). -/
def getNodeDeps (c : Cargs) (n : TsNode) : Option (List String) :=
  if n.kind = TsKind.sourceFile then some (getImports c n) else none

/-! ### Directory reconstruction (`insertFileNode`) -/

/-- The `tree.children!.find(x => x.type == 'dir' && x.name == dirname)`
search together with the subsequent in-place mutation `f`: the first child
that is a `dir` named `dirname` is replaced by `f` of it; when no child
matches, `f` of a freshly created empty `dir` node is appended (the source
pushes the new `dir` node and then mutates it in place, which amounts to
appending the mutated node). -/
def replaceFirstDir (dirname : List Char) (f : TreeNode → TreeNode) :
    List TreeNode → List TreeNode
  | [] => [f (TreeNode.mk (String.mk dirname) .dir none none [])]
  | x :: xs =>
    if x.type = NodeType.dir ∧ x.name = String.mk dirname then f x :: xs
    else x :: replaceFirstDir dirname f xs

/-- `insertFileNode` of `src/index.ts` (lines 164-182), on the segment list
`splitChar relpath.toList` of the remaining path.  In the source,
`i = relpath.indexOf('/')` with `dirname = relpath.slice(0, i)` cuts off the
first segment and recurses on `relpath.slice(i + 1)`; since the remainder is
only ever split again, the path is represented here by its list of
`'/'`-separated segments.  `!dirname` is true when there is no `'/'`
(`dirname` is `null`, i.e. the segment list is a singleton) or the first
segment is empty (`""` is falsy) — then the node is pushed directly;
otherwise the insertion recurses into the first existing `dir` child named
`dirname` via `replaceFirstDir`. -/
def insertSegs (tree node : TreeNode) : List (List Char) → TreeNode
  | [] => pushChild tree node
  | [_] => pushChild tree node
  | dirname :: r :: rs =>
    if dirname = [] then pushChild tree node
    else tree.withChildren
      (replaceFirstDir dirname (fun child => insertSegs child node (r :: rs))
        tree.children)

/-- `insertFileNode` on strings, as called by `parseTsProject`. -/
def insertFileNode (tree node : TreeNode) (relpath : String) : TreeNode :=
  insertSegs tree node (splitChar relpath.toList)

/-- A sequence of `insertFileNode` calls (the per-file loop of
`parseTsProject` restricted to its tree effect). -/
def insertAll (tree : TreeNode) (inserts : List (TreeNode × String)) : TreeNode :=
  inserts.foldl (fun t i => insertFileNode t i.1 i.2) tree

/-! ### Configuration resolution and the project-graph walk -/

/-- Compiler options are only handed through to the black-box compiler; their
content never influences the summarizer, so they are an uninterpreted list of
key/value pairs. -/
def CompilerOptions := List (String × String)

/-- `DEFAULT_COMPILER_OPTIONS` of `src/index.ts` (lines 52-56). -/
def DEFAULT_COMPILER_OPTIONS : CompilerOptions :=
  [("lib", "es2017"), ("allowJs", "true"), ("noImplicitAny", "false")]

/-- `TsConfigSubset` of `src/index.ts` (lines 104-108); a project reference is
used only through its `path`. -/
structure TsConfigSubset where
  options : CompilerOptions
  fileNames : List String
  projectReferences : List String

/-- The outcome of `ts.readConfigFile` followed by
`ts.parseJsonConfigFileContent` on an existing `tsconfig.json`:
`wellFormedJson` records whether `readConfigFile` reported an `error`
diagnostic (it never throws — malformed JSON yields a tolerantly recovered
`config` object plus a diagnostic), and `parsed` is whatever
`parseJsonConfigFileContent` produced from that recovered object.
`src/index.ts` never inspects the diagnostic. -/
structure ConfigFile where
  wellFormedJson : Bool
  parsed : TsConfigSubset

/-- The black-box environment of one run: which project directories (keys are
trailing-slash-normalized, as `parseTsConfig` receives them) contain a
`tsconfig.json` and with which parse outcome; what `glob.sync` finds under a
directory; and the per-file syntax tree plus resolved-import map the compiler
yields for a file name (`ts.createProgram` + `program.getSourceFiles`,
treated per file exactly as the spec's collaborator contract describes). -/
structure World where
  configs : List (String × ConfigFile)
  globOf : String → List String
  astOf : String → TsNode

/-- `ts.sys.fileExists(projectDir + 'tsconfig.json')` in `parseTsConfig`. -/
def tsconfigExists (w : World) (projectDir : String) : Bool :=
  (w.configs.lookup projectDir).isSome

/-- `generateTsConfig` of `src/index.ts` (lines 242-252). -/
def generateTsConfig (w : World) (projectDir : String) : TsConfigSubset :=
  { options := DEFAULT_COMPILER_OPTIONS
    fileNames := w.globOf projectDir
    projectReferences := [] }

/-- `parseTsConfig` of `src/index.ts` (lines 212-240): fall back to globbing
when no `tsconfig.json` exists; otherwise return the parsed content.  The
`error` field that `ts.readConfigFile` returns for malformed JSON is never
consulted, faithfully to the source. -/
def parseTsConfig (w : World) (projectDir : String) : TsConfigSubset :=
  match w.configs.lookup projectDir with
  | none => generateTsConfig w projectDir
  | some configFile => configFile.parsed

/-- The trailing-slash normalization at the top of `parseTsProject`
(lines 123-124): `if (!projectDir.endsWith('/')) projectDir += '/'`. -/
def normalizeDir (s : String) : String :=
  if s.toList.getLast? = some '/' then s else s ++ "/"

/-- `projectDir.split('/').slice(-2)[0]` (line 133).  For a list of `n ≥ 2`
segments this is segment `n - 2`; for a single segment, `slice(-2)` is the
whole array and the result is that segment — and `n - 2 = 0` then, too. -/
def projName (projectDir : String) : String :=
  let parts := splitChar projectDir.toList
  String.mk (parts.getD (parts.length - 2) [])

/-- Fueled worker for `chunksOf`; the fuel only certifies termination and is
always instantiated with the list length, which suffices because every step
consumes at least the head element. -/
def chunksGo (b : Nat) : Nat → List α → List (List α)
  | _, [] => []
  | 0, l => [l]
  | fuel + 1, x :: xs => (x :: xs.take (b - 1)) :: chunksGo b fuel (xs.drop (b - 1))

/-- The batch partition of the file-name list performed by
`for (let baseFile = 0; baseFile < n; baseFile += BATCH_FILES)` with
`slice(baseFile, baseFile + BATCH_FILES)`: contiguous chunks of `b` elements
(the last possibly shorter).  For `b = 0` — which the source never uses, its
batch size being the constant 256 — this definition degenerates to singleton
chunks instead of the source loop's non-termination. -/
def chunksOf (b : Nat) (l : List α) : List (List α) :=
  chunksGo b l.length l

/-- The body of the per-file loop of `parseTsProject` (lines 145-151),
producing the `TreeNode` for one compiled source file together with the
`relpath` under which it is inserted. -/
def buildFileNode (c : Cargs) (projectDir : String) (file : TsNode) :
    TreeNode × String :=
  let summary := getNodeSummary file
  let relpath := String.mk (removeFirstOcc projectDir.toList summary.2.1.toList)
  let name := lastSplitSeg relpath
  let children := inspectSubNodes c file
  let deps := getNodeDeps c file
  let node : TreeNode :=
    match deps with
    | none => TreeNode.mk name summary.1 (some summary.2.2) none children
    | some ds => TreeNode.mk name summary.1 (some summary.2.2) (some ds) children
  (node, relpath)

/-- One batch of the per-file loop, as a list of produced file nodes: the
batch's files are compiled (`ts.createProgram` / `getSourceFiles`, i.e.
`w.astOf` per file), files matching `EXCLUDED_FILEPATHS`
(`/\/node_modules\//`) are skipped, and each remaining file yields its node
and insertion path. -/
def batchFileNodes (c : Cargs) (w : World) (projectDir : String)
    (batch : List String) : List (TreeNode × String) :=
  (batch.map w.astOf).filterMap fun file =>
    if containsSub "/node_modules/".toList file.ident.toList then none
    else some (buildFileNode c projectDir file)

/-- The tree effect of one batch iteration's file loop: insert every produced
file node. -/
def processBatchFiles (c : Cargs) (w : World) (projectDir : String)
    (tree : TreeNode) (batch : List String) : TreeNode :=
  (batchFileNodes c w projectDir batch).foldl
    (fun t i => insertFileNode t i.1 i.2) tree

/-- The `for (let pref of tsConfig.projectReferences || [])` loop
(lines 155-158), abstracted over the recursive call `rec` (which receives the
shared, threaded visited set): resolve each reference and push each non-null
subtree.  The third result component is the ghost log of project directories
materialized inside, used to state the exactly-once property. -/
def pushIfSome (tree : TreeNode) : Option TreeNode → TreeNode
  | some s => pushChild tree s
  | none => tree

def refsFold (rec : String → List String → Option (Option TreeNode × List String × List String))
    (refs : List String) (tree : TreeNode) (visited : List String) :
    Option (TreeNode × List String × List String) :=
  match refs with
  | [] => some (tree, visited, [])
  | r :: rs =>
    match rec r visited with
    | none => none
    | some (subtree, v₁, m₁) =>
      match refsFold rec rs (pushIfSome tree subtree) v₁ with
      | none => none
      | some (tree₂, v₂, m₂) => some (tree₂, v₂, m₁ ++ m₂)

/-- The batch loop of `parseTsProject` (lines 136-159): each iteration first
runs the per-file loop over the batch, then — inside the same iteration,
faithfully to the source — the project-reference loop. -/
def batchesFold (fileStep : TreeNode → List String → TreeNode)
    (refStep : TreeNode → List String → Option (TreeNode × List String × List String))
    (batches : List (List String)) (tree : TreeNode) (visited : List String) :
    Option (TreeNode × List String × List String) :=
  match batches with
  | [] => some (tree, visited, [])
  | b :: bs =>
    let tree₁ := fileStep tree b
    match refStep tree₁ visited with
    | none => none
    | some (tree₂, v₂, m₁) =>
      match batchesFold fileStep refStep bs tree₂ v₂ with
      | none => none
      | some (tree₃, v₃, m₂) => some (tree₃, v₃, m₁ ++ m₂)

/-- `parseTsProject` of `src/index.ts` (lines 122-162), with the mutated
`alreadyParsed` set threaded explicitly and a fuel argument bounding the
recursion depth (`none` means the fuel ran out; any fuel exceeding the number
of configured projects is enough, as proved below).  Returns the
`TreeNode | null` result, the final visited set, and the ghost log of
directories whose subtree was materialized by this call. -/
def parseTsProjectF (c : Cargs) (w : World) :
    Nat → String → List String → Option (Option TreeNode × List String × List String)
  | 0, _, _ => none
  | fuel + 1, projectDir, alreadyParsed =>
    let pd := normalizeDir projectDir
    if alreadyParsed.contains pd then some (none, alreadyParsed, [])
    else
      let visited₁ := alreadyParsed ++ [pd]
      let tsConfig := parseTsConfig w pd
      let tree : TreeNode := TreeNode.mk (projName pd) .program none none []
      match batchesFold (processBatchFiles c w pd)
          (refsFold (parseTsProjectF c w fuel) tsConfig.projectReferences)
          (chunksOf BATCH_FILES tsConfig.fileNames) tree visited₁ with
      | none => none
      | some (tree', v', m) => some (some tree', v', pd :: m)

/-! ### Observations on trees used by the claims -/

mutual

/-- The contribution of one child to the set of file nodes reachable from its
parent by descending through `dir` nodes only: a `file` child is reachable
with no intermediate directories; a `dir` child prefixes its name to every
path reachable below it; any other child contributes nothing. -/
def nodePaths : TreeNode → List (List String × String)
  | .mk n ty _ _ ch =>
    if ty = NodeType.file then [([], n)]
    else if ty = NodeType.dir then (childPaths ch).map (fun q => (n :: q.1, q.2))
    else []

/-- All `(traversed dir names, file name)` pairs reachable from a children
list by descending through `dir` nodes. -/
def childPaths : List TreeNode → List (List String × String)
  | [] => []
  | x :: xs => nodePaths x ++ childPaths xs

end

/-- File nodes reachable from the root of `t` by descending through zero or
more `dir` nodes, each with the `dir` names traversed to reach it. -/
def filePaths (t : TreeNode) : List (List String × String) :=
  childPaths t.children

/-- The reconstructed path of one reachable file: the traversed `dir` names
and the file's `name`, joined with `/`. -/
def reconstructed (q : List String × String) : String :=
  joinSegs (q.1 ++ [q.2])

/-- A project-relative path is well formed when none of its `/`-separated
segments is empty (no leading, trailing or doubled separator). -/
def wellFormedPath (s : String) : Bool :=
  (splitChar s.toList).all (· ≠ [])

/-- Boolean distinctness of a list of names. -/
def distinctB : List String → Bool
  | [] => true
  | x :: xs => !(xs.contains x) && distinctB xs

/-- The names of the `dir`-typed members of a children list. -/
def dirNamesOf (ch : List TreeNode) : List String :=
  (ch.filter (fun x => x.type == NodeType.dir)).map TreeNode.name

mutual

/-- No node of the tree has two sibling `dir` children with the same name. -/
def noDupDirs : TreeNode → Bool
  | .mk _ _ _ _ ch => distinctB (dirNamesOf ch) && noDupDirsList ch

def noDupDirsList : List TreeNode → Bool
  | [] => true
  | x :: xs => noDupDirs x && noDupDirsList xs

end

mutual

/-- `NodePres t t'` — `t'` is `t` with the same name, type, size and deps, in
which every existing child is preserved in place (recursively) and new
children may only have been appended after the existing ones.  This is the
shape-stability insertions guarantee: sibling order reflects first
encounter. -/
inductive NodePres : TreeNode → TreeNode → Prop where
  | mk : ∀ (n : String) (ty : NodeType) (sz : Option Nat)
      (dp : Option (List String)) (ch ch' : List TreeNode),
      ChildPres ch ch' → NodePres (.mk n ty sz dp ch) (.mk n ty sz dp ch')

/-- Pointwise preservation of a children list: the old list is preserved
element by element as a prefix of the new one. -/
inductive ChildPres : List TreeNode → List TreeNode → Prop where
  | nil : ∀ l, ChildPres [] l
  | cons : ∀ x x' xs xs', NodePres x x' → ChildPres xs xs' →
      ChildPres (x :: xs) (x' :: xs')

end

mutual

/-- Every node of the tree (itself and, recursively, its children) has a type
drawn from the fixed eleven-member enumeration. -/
def enumTyped : TreeNode → Bool
  | .mk _ ty _ _ ch => FIXED_NODE_TYPES.contains ty && enumTypedList ch

def enumTypedList : List TreeNode → Bool
  | [] => true
  | x :: xs => enumTyped x && enumTypedList xs

end

mutual

/-- No node of the tree carries the synthetic type of an excluded syntax
kind — the output-side trace of a noise node. -/
def noExcludedSynth : TreeNode → Bool
  | .mk _ ty _ _ ch =>
    (match ty with
     | .synthetic k => !(EXCLUDED_TSNODES.contains k)
     | _ => true) && noExcludedSynthList ch

def noExcludedSynthList : List TreeNode → Bool
  | [] => true
  | x :: xs => noExcludedSynth x && noExcludedSynthList xs

end

mutual

/-- No node of the tree carries a `deps` field. -/
def depsFree : TreeNode → Bool
  | .mk _ _ _ dp ch => dp == none && depsFreeList ch

def depsFreeList : List TreeNode → Bool
  | [] => true
  | x :: xs => depsFree x && depsFreeList xs

end

/-- The configured project directories of a world. -/
def worldKeys (w : World) : List String := w.configs.map Prod.fst

/-- How many configured project directories are not yet visited — the measure
showing the project-graph walk needs only bounded fuel. -/
def unvisitedKeys (w : World) (visited : List String) : Nat :=
  ((worldKeys w).filter (fun k => !(visited.contains k))).length

/-- The world with every `tsconfig.json` parse outcome's well-formedness
diagnostic replaced by `b` (same recovered configurations, different
diagnostics). -/
def setWellFormed (w : World) (b : Bool) : World :=
  { w with configs := w.configs.map (fun e => (e.1, ⟨b, e.2.parsed⟩)) }

/-- Modelled from the spec (claim C10's reading): the last path segment of a
trailing-slash-normalized directory — the final `/`-separated segment once
the trailing empty segment produced by the trailing slash is dropped. -/
def specLastSegment (s : String) : String :=
  String.mk (((splitChar s.toList).dropLast).getLastD [])

/-- The ordered list of file subtrees (with their insertion paths) produced
when the file list is summarized in contiguous batches of size `b` — the
whole batch loop of `parseTsProject` restricted to its per-file output. -/
def summarizeFileNodes (c : Cargs) (w : World) (projectDir : String)
    (files : List String) (b : Nat) : List (TreeNode × String) :=
  (chunksOf b files).flatMap (batchFileNodes c w projectDir)

/-- Root-field agreement: same `name`, `type`, `size` and `deps` (the fields
no insertion or push ever changes on the node it operates on). -/
def sameShell (t t' : TreeNode) : Prop :=
  t'.name = t.name ∧ t'.type = t.type ∧ t'.size = t.size ∧ t'.deps = t.deps

/-! ### Concrete instances used by counterexamples and witnesses -/

/-- Default command-line arguments: `-p /p`, no optional flags. -/
def cargsD : Cargs := ⟨false, "/p", false, false⟩

/-- A compiler stub mapping every file name to an import-free source file of
full-text length 1. -/
def demoAst (f : String) : TsNode := .mk .sourceFile f 1 none [] []

/-- A world with two projects: `/a/` has a `tsconfig.json` with an *empty*
file list and one project reference to `/b`; `/b/` has one file. -/
def wRefNoFiles : World :=
  ⟨[("/a/", ⟨true, ⟨[], [], ["/b"]⟩⟩), ("/b/", ⟨true, ⟨[], ["/b/x.ts"], []⟩⟩)],
   fun _ => [], demoAst⟩

/-- A world with a cyclic reference graph: `/a/` (one file) references `/b`,
and `/b/` (one file) references `/a`. -/
def wCyc : World :=
  ⟨[("/a/", ⟨true, ⟨[], ["/a/f.ts"], ["/b"]⟩⟩),
    ("/b/", ⟨true, ⟨[], ["/b/g.ts"], ["/a"]⟩⟩)],
   fun _ => [], demoAst⟩

/-- The tree the run on `wCyc` produces for `/a`. -/
def tCyc : TreeNode :=
  .mk "a" .program none none
    [.mk "f.ts" .file (some 1) (some []) [],
     .mk "b" .program none none [.mk "g.ts" .file (some 1) (some []) []]]

/-- A world whose single project `/p/` has an existing but malformed
`tsconfig.json` (`wellFormedJson = false`): the tolerant reader still
recovered a configuration listing one file. -/
def wMal : World :=
  ⟨[("/p/", ⟨false, ⟨[], ["/p/a.ts"], []⟩⟩)], fun _ => [], demoAst⟩

/-- A world with no configured projects at all. -/
def wEmpty : World := ⟨[], fun _ => [], demoAst⟩

/-- A source file with one import declaration whose specifier `./b` resolves
to `/p/b.ts`. -/
def fileWithImport : TsNode :=
  .mk .sourceFile "/p/a.ts" 10 none [("./b", "/p/b.ts")]
    [.mk .importDeclaration "" 3 (some (.stringLiteral, "./b")) [] []]

/-! ## Lemmas -/

theorem depsFreeList_append (l₁ l₂ : List TreeNode) :
    depsFreeList (l₁ ++ l₂) = (depsFreeList l₁ && depsFreeList l₂) := by
  induction l₁ with
  | nil => simp [depsFreeList]
  | cons x xs ih => simp [depsFreeList, ih, Bool.and_assoc]

theorem noExcludedSynthList_append (l₁ l₂ : List TreeNode) :
    noExcludedSynthList (l₁ ++ l₂) =
      (noExcludedSynthList l₁ && noExcludedSynthList l₂) := by
  induction l₁ with
  | nil => simp [noExcludedSynthList]
  | cons x xs ih => simp [noExcludedSynthList, ih, Bool.and_assoc]

theorem enumTypedList_append (l₁ l₂ : List TreeNode) :
    enumTypedList (l₁ ++ l₂) = (enumTypedList l₁ && enumTypedList l₂) := by
  induction l₁ with
  | nil => simp [enumTypedList]
  | cons x xs ih => simp [enumTypedList, ih, Bool.and_assoc]

theorem getNodeTypeName_synthetic (n : TsNode) (k : TsKind)
    (h : (getNodeTypeName n).1 = .synthetic k) : k = n.kind := by
  cases n with
  | mk kd i l ms rm ch => cases kd <;> simp_all [getNodeTypeName, TsNode.kind]

theorem getNodeTypeName_named_fixed (n : TsNode)
    (h : (getNodeTypeName n).2 ≠ "") :
    FIXED_NODE_TYPES.contains (getNodeTypeName n).1 = true := by
  cases n with
  | mk kd i l ms rm ch =>
    cases kd <;>
      simp_all [getNodeTypeName, FIXED_NODE_TYPES, TsNode.kind, TsNode.ident]

theorem composite_fixed (n : TsNode)
    (h : COMPOSITE_TSNODES.contains n.kind = true) :
    FIXED_NODE_TYPES.contains (getNodeTypeName n).1 = true := by
  cases n with
  | mk kd i l ms rm ch =>
    cases kd <;> simp_all [getNodeTypeName, COMPOSITE_TSNODES, FIXED_NODE_TYPES,
      TsNode.kind]

mutual

theorem depsFree_inspect (c : Cargs) : ∀ n : TsNode,
    depsFreeList (inspectSubNodes c n) = true
  | .mk _ _ _ _ _ ch => depsFree_inspectList c ch

theorem depsFree_inspectList (c : Cargs) : ∀ ch : List TsNode,
    depsFreeList (inspectChildList c ch) = true
  | [] => rfl
  | node :: rest => by
    rw [inspectChildList, depsFreeList_append, depsFree_inspectList c rest]
    split
    · rfl
    · dsimp only
      split
      · simp only [depsFreeList, depsFree, Bool.and_true]
        split
        · rw [depsFree_inspect c node]; rfl
        · rfl
      · rfl

end

mutual

theorem noExcl_inspect (c : Cargs) : ∀ n : TsNode,
    noExcludedSynthList (inspectSubNodes c n) = true
  | .mk _ _ _ _ _ ch => noExcl_inspectList c ch

theorem noExcl_inspectList (c : Cargs) : ∀ ch : List TsNode,
    noExcludedSynthList (inspectChildList c ch) = true
  | [] => rfl
  | node :: rest => by
    rw [inspectChildList, noExcludedSynthList_append, noExcl_inspectList c rest]
    split
    · rfl
    next hexcl =>
      dsimp only
      have hch : noExcludedSynthList
          (if isComposite c node = true then inspectSubNodes c node else []) = true := by
        split
        · exact noExcl_inspect c node
        · rfl
      split
      · simp only [noExcludedSynthList, noExcludedSynth, Bool.and_true]
        rw [hch, Bool.and_true]
        split
        next k hk =>
          have := getNodeTypeName_synthetic node k hk
          subst this
          simp only [Bool.not_eq_true']
          exact Bool.of_not_eq_true hexcl
        · rfl
      · rfl

end

mutual

theorem enum_inspect (c : Cargs) (h1 : c.expandFunctions = false)
    (h2 : c.addUnnamedLeafs = false) : ∀ n : TsNode,
    enumTypedList (inspectSubNodes c n) = true
  | .mk _ _ _ _ _ ch => enum_inspectList c h1 h2 ch

theorem enum_inspectList (c : Cargs) (h1 : c.expandFunctions = false)
    (h2 : c.addUnnamedLeafs = false) : ∀ ch : List TsNode,
    enumTypedList (inspectChildList c ch) = true
  | [] => rfl
  | node :: rest => by
    rw [inspectChildList, enumTypedList_append, enum_inspectList c h1 h2 rest]
    split
    · rfl
    · dsimp only
      have hdeep : isComposite c node = COMPOSITE_TSNODES.contains node.kind := by
        simp [isComposite, h1]
      have hch : enumTypedList
          (if isComposite c node = true then inspectSubNodes c node else []) = true := by
        split
        · exact enum_inspect c h1 h2 node
        · rfl
      split
      next hcond =>
        simp only [enumTypedList, enumTyped, Bool.and_true]
        rw [hch, Bool.and_true]
        rcases Bool.or_eq_true_iff.mp hcond with hor | hleaf
        · rcases Bool.or_eq_true_iff.mp hor with hname | hdp
          · exact getNodeTypeName_named_fixed node (by simpa using hname)
          · exact composite_fixed node (hdeep ▸ hdp)
        · rw [h2] at hleaf
          exact absurd hleaf (by simp)
      · rfl

end

/-! ## Claims C1, C3, C7 -/

/-- Claim C1 (counterexample): the claim says a file whose imports are all
unresolvable, or that has no imports at all, carries no `deps` field.  But
`getImports` always returns an array and the guard `if (deps)` is true for an
empty JavaScript array, so an import-free source file still receives
`deps = []` — the field is present. -/
theorem C1_counterexample :
    (buildFileNode cargsD "/p/" (.mk .sourceFile "/p/a.ts" 10 none [] [])).1.deps
        = some [] ∧
    some ([] : List String) ≠ none :=
  ⟨rfl, by simp⟩

/-- Claim C1 (amended): every emitted file node carries a `deps` field — equal
to the project-relative resolved targets of its resolvable string-literal
imports, and empty (not absent) when there are none — while nodes produced by
`inspectSubNodes` never carry one. -/
theorem C1_amended :
    (∀ (c : Cargs) (pd : String) (f : TsNode), f.kind = TsKind.sourceFile →
      (buildFileNode c pd f).1.deps = some (getImports c f)) ∧
    (∀ (c : Cargs) (n : TsNode), depsFreeList (inspectSubNodes c n) = true) := by
  constructor
  · intro c pd f h
    simp [buildFileNode, getNodeDeps, h, TreeNode.deps]
  · exact fun c n => depsFree_inspect c n

/-- Claim C1 (witness): the amended theorem applied to a concrete file with
one resolvable import. -/
theorem C1_witness :
    (buildFileNode cargsD "/p/" fileWithImport).1.deps
      = some (getImports cargsD fileWithImport) :=
  C1_amended.1 cargsD "/p/" fileWithImport rfl

/-- Claim C3 (counterexample): the spec's noise set contains plain
statements/expressions, yet with `--expand-functions` an expression statement
(kind in `SPEC_NOISE_SET`) is emitted into the output tree and its string
literal child is visited and emitted below it. -/
theorem C3_counterexample :
    inspectSubNodes ⟨false, "/p", true, false⟩
      (.mk .sourceFile "/p/a.ts" 9 none []
        [.mk .expressionStatement "" 5 none []
          [.mk .stringLiteral "hi" 2 none [] []]])
      = [.mk "" (.synthetic .expressionStatement) (some 5) none
          [.mk "hi" .text (some 2) none []]] ∧
    TsKind.expressionStatement ∈ SPEC_NOISE_SET :=
  ⟨rfl, by decide⟩

/-- Claim C3 (amended): the noise set the code enforces is `EXCLUDED_TSNODES`
(the spec's list minus plain statements/expressions, conditional statements
and call signatures): no output node ever carries the synthetic type of an
excluded kind, and an excluded child is skipped outright — removing it leaves
the output unchanged, so its children are never visited.  The four extra
spec categories are not excluded; they are merely name-suppressed under
default flags and can be emitted (with children visited) under
`--expand-functions` or `--add-unnamed-leafs`. -/
theorem C3_amended :
    (∀ (c : Cargs) (n : TsNode), noExcludedSynthList (inspectSubNodes c n) = true) ∧
    (∀ (c : Cargs) (node : TsNode) (rest : List TsNode),
      EXCLUDED_TSNODES.contains node.kind = true →
      inspectChildList c (node :: rest) = inspectChildList c rest) := by
  constructor
  · exact fun c n => noExcl_inspect c n
  · intro c node rest h
    rw [inspectChildList, h]
    rfl

/-- Claim C3 (witness): the amended theorem applied to an import declaration
child, which is skipped entirely. -/
theorem C3_witness :
    inspectChildList cargsD [TsNode.mk .importDeclaration "" 3 none [] []]
      = inspectChildList cargsD [] :=
  C3_amended.2 cargsD (TsNode.mk .importDeclaration "" 3 none [] []) []
    (by decide)

/-- Claim C7 (counterexample): with `--add-unnamed-leafs` a variable statement
is emitted with the synthetic fallback type (`VariableStatement:kind`), which
is not one of the eleven enumerated node types. -/
theorem C7_counterexample :
    inspectSubNodes ⟨false, "/p", false, true⟩
      (.mk .sourceFile "/p/b.ts" 7 none []
        [.mk .variableStatement "" 7 none [] []])
      = [.mk "" (.synthetic .variableStatement) (some 7) none []] ∧
    FIXED_NODE_TYPES.contains (NodeType.synthetic .variableStatement) = false :=
  ⟨rfl, by decide⟩

/-- Claim C7 (amended): under default flags (no `--expand-functions`, no
`--add-unnamed-leafs`) every node `inspectSubNodes` emits — the only source
of synthetic labels — has a type drawn from the fixed eleven-member
enumeration; `program`, `dir` and `file` nodes are in it by construction. -/
theorem C7_amended : ∀ (c : Cargs) (n : TsNode),
    c.expandFunctions = false → c.addUnnamedLeafs = false →
    enumTypedList (inspectSubNodes c n) = true :=
  fun c n h1 h2 => enum_inspect c h1 h2 n

/-- Claim C7 (witness): the amended theorem applied at default flags to a file
containing a class declaration. -/
theorem C7_witness :
    enumTypedList (inspectSubNodes cargsD
      (.mk .sourceFile "/p/a.ts" 3 none []
        [.mk .classDeclaration "A" 3 none [] []])) = true :=
  C7_amended cargsD
    (.mk .sourceFile "/p/a.ts" 3 none [] [.mk .classDeclaration "A" 3 none [] []])
    rfl rfl

/-! ## Claims C2 and C4 -/

theorem lookup_setWellFormed (b : Bool) (k : String) :
    ∀ l : List (String × ConfigFile),
      (l.map (fun e => (e.1, (⟨b, e.2.parsed⟩ : ConfigFile)))).lookup k
        = (l.lookup k).map (fun cf => ⟨b, cf.parsed⟩)
  | [] => rfl
  | (a, cf) :: es => by
    simp only [List.map_cons, List.lookup]
    cases k == a
    · exact lookup_setWellFormed b k es
    · rfl

theorem parseTsConfig_setWellFormed (w : World) (b : Bool) (pd : String) :
    parseTsConfig (setWellFormed w b) pd = parseTsConfig w pd := by
  unfold parseTsConfig
  rw [show (setWellFormed w b).configs
        = w.configs.map (fun e => (e.1, (⟨b, e.2.parsed⟩ : ConfigFile)))
      from rfl,
    lookup_setWellFormed]
  cases w.configs.lookup pd
  · rfl
  · rfl

theorem parse_setWellFormed (c : Cargs) (w : World) (b : Bool) :
    ∀ (fuel : Nat) (d : String) (v : List String),
      parseTsProjectF c (setWellFormed w b) fuel d v = parseTsProjectF c w fuel d v
  | 0, _, _ => rfl
  | fuel + 1, d, v => by
    have hrec : parseTsProjectF c (setWellFormed w b) fuel
        = parseTsProjectF c w fuel := by
      funext d' v'
      exact parse_setWellFormed c w b fuel d' v'
    show parseTsProjectF c (setWellFormed w b) (fuel + 1) d v
        = parseTsProjectF c w (fuel + 1) d v
    simp only [parseTsProjectF]
    rw [parseTsConfig_setWellFormed, hrec]
    rfl

/-- Claim C2 (counterexample): `/p/` has an existing but malformed
`tsconfig.json` (`wellFormedJson = false`), yet the run does not fail and does
not surface an error: it produces the full output tree for the tolerantly
recovered configuration. -/
theorem C2_counterexample :
    tsconfigExists wMal "/p/" = true ∧
    (wMal.configs.lookup "/p/").map ConfigFile.wellFormedJson = some false ∧
    parseTsProjectF cargsD wMal 2 "/p" []
      = some (some (.mk "p" .program none none
          [.mk "a.ts" .file (some 1) (some []) []]), ["/p/"], ["/p/"]) :=
  ⟨rfl, rfl, rfl⟩

/-- Claim C2 (amended): a malformed `tsconfig.json` is not fatal.
`parseTsConfig` never consults the reader's error diagnostic, so the entire
run is identical whatever the diagnostic says: flipping every config's
well-formedness flag changes nothing, and output is produced normally. -/
theorem C2_amended :
    ∀ (c : Cargs) (w : World) (b : Bool) (fuel : Nat) (d : String)
      (v : List String),
      parseTsProjectF c (setWellFormed w b) fuel d v
        = parseTsProjectF c w fuel d v :=
  fun c w b fuel d v => parse_setWellFormed c w b fuel d v

/-- Claim C4 (code_bug evaluation): project `/a/` declares a reference to
`/b` but has an empty file list.  Because the source iterates
`projectReferences` inside the per-batch loop, zero files mean zero batch
iterations: the run returns the `/a` root with no children at all and never
visits `/b` — the declared reference of this not-yet-visited project is
resolved zero times, not once. -/
theorem C4_bug_eval :
    parseTsProjectF cargsD wRefNoFiles 5 "/a" []
      = some (some (.mk "a" .program none none []), ["/a/"], ["/a/"]) ∧
    (["/a/"] : List String).contains "/b/" = false :=
  ⟨rfl, rfl⟩

/-! ## Claim C9 -/

theorem chunksGo_flatten {α : Type} (b : Nat) :
    ∀ (fuel : Nat) (l : List α), l.length ≤ fuel →
      (chunksGo b fuel l).flatten = l
  | 0, [], _ => rfl
  | 0, _ :: _, h => by simp at h
  | _ + 1, [], _ => rfl
  | fuel + 1, x :: xs, h => by
    rw [chunksGo, List.flatten_cons,
      chunksGo_flatten b fuel (xs.drop (b - 1)) (by
        rw [List.length_drop]
        have hx : xs.length ≤ fuel := Nat.succ_le_succ_iff.mp (by simpa using h)
        omega)]
    simp [List.take_append_drop]

theorem chunksOf_flatten {α : Type} (b : Nat) (l : List α) :
    (chunksOf b l).flatten = l :=
  chunksGo_flatten b l.length l le_rfl

theorem flatMap_filterMap_flatten {α β : Type} (h : α → Option β) :
    ∀ L : List (List α), L.flatMap (·.filterMap h) = L.flatten.filterMap h
  | [] => rfl
  | l :: ls => by
    rw [List.flatMap_cons, List.flatten_cons, List.filterMap_append,
      flatMap_filterMap_flatten h ls]

theorem summarize_eq_filterMap (c : Cargs) (w : World) (pd : String)
    (files : List String) (b : Nat) :
    summarizeFileNodes c w pd files b
      = files.filterMap (fun fn =>
          if containsSub "/node_modules/".toList (w.astOf fn).ident.toList then none
          else some (buildFileNode c pd (w.astOf fn))) := by
  unfold summarizeFileNodes
  have hb : batchFileNodes c w pd = fun batch : List String =>
      batch.filterMap (fun fn =>
        if containsSub "/node_modules/".toList (w.astOf fn).ident.toList then none
        else some (buildFileNode c pd (w.astOf fn))) := by
    funext batch
    unfold batchFileNodes
    rw [List.filterMap_map]
    rfl
  rw [hb, flatMap_filterMap_flatten, chunksOf_flatten]

/-- Claim C9 (confirmed): summarizing a file list in fixed-size contiguous
batches yields, for any two positive batch sizes, the same ordered list of
file subtrees with identical content — both equal the unbatched per-file
summary (under the spec's per-file black-box compiler contract). -/
theorem C9_batching_equiv :
    ∀ (c : Cargs) (w : World) (pd : String) (files : List String) (b₁ b₂ : Nat),
      0 < b₁ → 0 < b₂ →
      summarizeFileNodes c w pd files b₁ = summarizeFileNodes c w pd files b₂ := by
  intro c w pd files b₁ b₂ _ _
  rw [summarize_eq_filterMap, summarize_eq_filterMap]

/-- Claim C9 (witness): five files, batch size 2 (three batches) versus batch
size 3 (two batches). -/
theorem C9_witness :
    summarizeFileNodes cargsD wEmpty "/p/"
      ["/p/a.ts", "/p/b.ts", "/p/c.ts", "/p/d.ts", "/p/e.ts"] 2
    = summarizeFileNodes cargsD wEmpty "/p/"
      ["/p/a.ts", "/p/b.ts", "/p/c.ts", "/p/d.ts", "/p/e.ts"] 3 :=
  C9_batching_equiv cargsD wEmpty "/p/"
    ["/p/a.ts", "/p/b.ts", "/p/c.ts", "/p/d.ts", "/p/e.ts"] 2 3
    (by decide) (by decide)

/-! ## Structural lemmas for insertion (claims C5, C6) -/

theorem children_withChildren (t : TreeNode) (ch : List TreeNode) :
    (t.withChildren ch).children = ch := by
  cases t; rfl

theorem name_withChildren (t : TreeNode) (ch : List TreeNode) :
    (t.withChildren ch).name = t.name := by
  cases t; rfl

theorem type_withChildren (t : TreeNode) (ch : List TreeNode) :
    (t.withChildren ch).type = t.type := by
  cases t; rfl

theorem mk_toList (s : String) : String.mk s.toList = s := rfl

theorem toList_mk (l : List Char) : (String.mk l).toList = l := rfl

theorem splitChar_ne_nil : ∀ l : List Char, splitChar l ≠ []
  | [] => by simp [splitChar]
  | c :: cs => by
    have h := splitChar_ne_nil cs
    rw [splitChar]
    split
    · simp
    · match hr : splitChar cs with
      | [] => exact absurd hr h
      | x :: xs => simp

theorem joinChar_splitChar : ∀ l : List Char, joinChar (splitChar l) = l
  | [] => rfl
  | c :: cs => by
    have ih := joinChar_splitChar cs
    have hne := splitChar_ne_nil cs
    rw [splitChar]
    split
    next hc =>
      subst hc
      match hr : splitChar cs with
      | [] => exact absurd hr hne
      | x :: xs =>
        rw [hr] at ih
        show joinChar ([] :: x :: xs) = _
        rw [joinChar]
        simpa using ih
    next hc =>
      match hr : splitChar cs with
      | [] => exact absurd hr hne
      | [x] =>
        rw [hr] at ih
        show joinChar [c :: x] = _
        rw [joinChar]
        simpa using congrArg (c :: ·) ih
      | x :: y :: ys =>
        rw [hr] at ih
        show joinChar ((c :: x) :: y :: ys) = _
        rw [joinChar] at ih ⊢
        simpa using congrArg (c :: ·) ih

/-- `insertSegs` never changes the root's `name`, `type`, `size` or `deps`:
it only rewrites the children list. -/
theorem insertSegs_shell : ∀ (segs : List (List Char)) (n : String)
    (ty : NodeType) (sz : Option Nat) (dp : Option (List String))
    (ch : List TreeNode) (node : TreeNode),
    ∃ ch', insertSegs (.mk n ty sz dp ch) node segs = .mk n ty sz dp ch'
  | [], n, ty, sz, dp, ch, node => ⟨ch ++ [node], rfl⟩
  | [_], n, ty, sz, dp, ch, node => ⟨ch ++ [node], rfl⟩
  | d :: r :: rs, n, ty, sz, dp, ch, node => by
    rw [insertSegs]
    split
    · exact ⟨ch ++ [node], rfl⟩
    · exact ⟨_, rfl⟩

theorem childPaths_append : ∀ l₁ l₂ : List TreeNode,
    childPaths (l₁ ++ l₂) = childPaths l₁ ++ childPaths l₂
  | [], l₂ => rfl
  | x :: xs, l₂ => by
    rw [List.cons_append, childPaths, childPaths, childPaths_append xs l₂,
      List.append_assoc]

theorem nodePaths_file (node : TreeNode) (h : node.type = NodeType.file) :
    nodePaths node = [([], node.name)] := by
  cases node with
  | mk n ty sz dp ch =>
    rw [nodePaths]
    simp_all [TreeNode.type, TreeNode.name]

/-- Auxiliary step for `insert_paths`: the effect of the children-level
search-and-mutate on the reachable file paths, given the induction hypothesis
for the remaining path `rest`. -/
theorem insert_paths_children (d : List Char) (rest : List (List Char))
    (node : TreeNode)
    (IH : ∀ t : TreeNode, ∀ q ∈ filePaths (insertSegs t node rest),
      q ∈ filePaths t ∨ q.1.map String.toList ++ [q.2.toList] = rest) :
    ∀ l : List TreeNode,
      ∀ q ∈ childPaths
        (replaceFirstDir d (fun child => insertSegs child node rest) l),
        q ∈ childPaths l ∨ q.1.map String.toList ++ [q.2.toList] = d :: rest := by
  intro l
  induction l with
  | nil =>
    intro q hq
    rw [replaceFirstDir, childPaths, childPaths, List.append_nil] at hq
    obtain ⟨ch', hch⟩ :=
      insertSegs_shell rest (String.mk d) .dir none none [] node
    rw [hch, nodePaths] at hq
    simp only [reduceIte] at hq
    obtain ⟨q', hq', rfl⟩ := List.mem_map.mp hq
    rcases IH (.mk (String.mk d) .dir none none []) q' (by
        rw [hch]
        exact hq') with hold | hnew
    · exact absurd hold (by simp [filePaths, TreeNode.children, childPaths])
    · right
      simp only [List.map_cons, List.cons_append, toList_mk]
      rw [hnew]
  | cons x xs ihl =>
    intro q hq
    rw [replaceFirstDir] at hq
    by_cases hcond : x.type = NodeType.dir ∧ x.name = String.mk d
    · rw [if_pos hcond] at hq
      rw [childPaths] at hq
      rcases List.mem_append.mp hq with hq1 | hq2
      · cases x with
        | mk xn xty xsz xdp xch =>
          have hxty : xty = NodeType.dir := hcond.1
          have hxn : xn = String.mk d := hcond.2
          obtain ⟨ch', hch⟩ := insertSegs_shell rest xn xty xsz xdp xch node
          rw [hch, nodePaths] at hq1
          subst hxty
          simp only [reduceIte] at hq1
          obtain ⟨q', hq', rfl⟩ := List.mem_map.mp hq1
          rcases IH (.mk xn .dir xsz xdp xch) q' (by
              rw [hch]
              exact hq') with hold | hnew
          · left
            rw [childPaths]
            apply List.mem_append_left
            rw [nodePaths]
            simp only [reduceIte]
            exact List.mem_map.mpr ⟨q', hold, rfl⟩
          · right
            simp only [List.map_cons, List.cons_append, hxn, toList_mk]
            rw [hnew]
      · left
        rw [childPaths]
        exact List.mem_append_right _ hq2
    · rw [if_neg hcond] at hq
      rw [childPaths] at hq
      rcases List.mem_append.mp hq with hq1 | hq2
      · left
        rw [childPaths]
        exact List.mem_append_left _ hq1
      · rcases ihl q hq2 with hold | hnew
        · left
          rw [childPaths]
          exact List.mem_append_right _ hold
        · right
          exact hnew

/-- Inserting a file node under a well-formed relative path only adds
reachable file paths whose segment decomposition is exactly that path. -/
theorem insert_paths : ∀ (segs : List (List Char)) (t node : TreeNode),
    segs ≠ [] →
    node.type = NodeType.file →
    (∀ s ∈ segs, s ≠ []) →
    node.name = String.mk (segs.getLastD []) →
    ∀ q ∈ filePaths (insertSegs t node segs),
      q ∈ filePaths t ∨ q.1.map String.toList ++ [q.2.toList] = segs
  | [], _, _ => fun h => absurd rfl h
  | [s], t, node => by
    intro _ hty _ hname q hq
    rw [show insertSegs t node [s] = pushChild t node from rfl] at hq
    rw [show filePaths (pushChild t node)
          = childPaths (t.children ++ [node]) from by
        cases t; rfl] at hq
    rw [childPaths_append] at hq
    rcases List.mem_append.mp hq with hq1 | hq2
    · exact Or.inl hq1
    · right
      rw [childPaths, childPaths, List.append_nil, nodePaths_file node hty] at hq2
      rcases List.mem_singleton.mp hq2 with rfl
      simp only [List.map_nil, List.nil_append, List.cons.injEq, and_true]
      rw [hname]
      rfl
  | d :: r :: rs, t, node => by
    intro _ hty hwf hname q hq
    have hd : d ≠ [] := hwf d (List.mem_cons_self d _)
    rw [insertSegs, if_neg hd] at hq
    rw [show filePaths (t.withChildren
          (replaceFirstDir d
            (fun child => insertSegs child node (r :: rs)) t.children))
        = childPaths (replaceFirstDir d
            (fun child => insertSegs child node (r :: rs)) t.children) from by
      cases t; rfl] at hq
    exact insert_paths_children d (r :: rs) node
      (fun t' => insert_paths (r :: rs) t' node (by simp) hty
        (fun s hs => hwf s (List.mem_cons_of_mem d hs))
        (by rw [hname]; rfl))
      t.children q hq

theorem insertAll_paths_aux :
    ∀ (inserts : List (TreeNode × String)) (t : TreeNode) (P : List String),
      (∀ q ∈ filePaths t, reconstructed q ∈ P) →
      (∀ i ∈ inserts, wellFormedPath i.2 = true ∧ i.1.type = NodeType.file ∧
        i.1.name = lastSplitSeg i.2) →
      ∀ q ∈ filePaths (insertAll t inserts),
        reconstructed q ∈ P ++ inserts.map Prod.snd
  | [], t, P, hP, _ => by simpa [insertAll] using hP
  | i :: is, t, P, hP, hins => by
    intro q hq
    obtain ⟨hwf, hty, hname⟩ := hins i (List.mem_cons_self i is)
    have hwf' : ∀ s ∈ splitChar i.2.toList, s ≠ [] := by
      intro s hs
      have := List.all_eq_true.mp hwf s hs
      simpa using this
    have hstep : ∀ q ∈ filePaths (insertFileNode t i.1 i.2),
        reconstructed q ∈ P ++ [i.2] := by
      intro q hq
      rcases insert_paths (splitChar i.2.toList) t i.1 (splitChar_ne_nil _)
          hty hwf' hname q hq with hold | hnew
      · exact List.mem_append_left _ (hP q hold)
      · apply List.mem_append_right
        have : reconstructed q = i.2 := by
          unfold reconstructed joinSegs
          rw [List.map_append, List.map_cons, List.map_nil, hnew,
            joinChar_splitChar, mk_toList]
        rw [this]
        exact List.mem_singleton.mpr rfl
    have hrest := insertAll_paths_aux is (insertFileNode t i.1 i.2) (P ++ [i.2])
      hstep (fun j hj => hins j (List.mem_cons_of_mem i hj)) q
      (by simpa [insertAll] using hq)
    simpa [List.append_assoc] using hrest

/-- Claim C5 (confirmed): starting from an empty root, after inserting any
sequence of file nodes — each named by the last segment of its well-formed
project-relative path, as `parseTsProject` builds them — every file node
reachable from the root by descending through `dir` nodes reconstructs, by
joining the traversed `dir` names and its own name with `/`, one of the
inserted project-relative paths. -/
theorem C5_path_roundtrip :
    ∀ (inserts : List (TreeNode × String)) (rootName : String),
      (∀ i ∈ inserts, wellFormedPath i.2 = true ∧ i.1.type = NodeType.file ∧
        i.1.name = lastSplitSeg i.2) →
      ∀ q ∈ filePaths (insertAll (.mk rootName .program none none []) inserts),
        reconstructed q ∈ inserts.map Prod.snd := by
  intro inserts rootName hins q hq
  have := insertAll_paths_aux inserts (.mk rootName .program none none []) []
    (by intro q hq; simp [filePaths, TreeNode.children, childPaths] at hq)
    hins q hq
  simpa using this

/-- Claim C5 (witness): the spec's concrete scenario — `src/a.ts` and
`src/util/b.ts` — with the reachable file `(["src","util"], "b.ts")`
reconstructing `src/util/b.ts`. -/
theorem C5_witness :
    reconstructed (["src", "util"], "b.ts")
      ∈ [(TreeNode.mk "a.ts" .file (some 1) (some []) [], "src/a.ts"),
         (TreeNode.mk "b.ts" .file (some 2) (some []) [], "src/util/b.ts")].map
          Prod.snd :=
  C5_path_roundtrip
    [(TreeNode.mk "a.ts" .file (some 1) (some []) [], "src/a.ts"),
     (TreeNode.mk "b.ts" .file (some 2) (some []) [], "src/util/b.ts")]
    "proj" (by decide) (["src", "util"], "b.ts") (by decide)

/-! ## Lemmas for claim C6 -/

theorem dirNamesOf_cons (x : TreeNode) (xs : List TreeNode) :
    dirNamesOf (x :: xs)
      = if x.type == NodeType.dir then x.name :: dirNamesOf xs
        else dirNamesOf xs := by
  simp only [dirNamesOf, List.filter_cons]
  split
  · rfl
  · rfl

theorem dirNamesOf_append (l₁ l₂ : List TreeNode) :
    dirNamesOf (l₁ ++ l₂) = dirNamesOf l₁ ++ dirNamesOf l₂ := by
  simp [dirNamesOf, List.filter_append]

theorem noDupDirsList_append : ∀ l₁ l₂ : List TreeNode,
    noDupDirsList (l₁ ++ l₂) = (noDupDirsList l₁ && noDupDirsList l₂)
  | [], l₂ => by simp [noDupDirsList]
  | x :: xs, l₂ => by
    rw [List.cons_append, noDupDirsList, noDupDirsList,
      noDupDirsList_append xs l₂, Bool.and_assoc]

theorem distinctB_iff_nodup : ∀ l : List String, distinctB l = true ↔ l.Nodup
  | [] => by simp [distinctB]
  | x :: xs => by
    rw [distinctB, Bool.and_eq_true, distinctB_iff_nodup xs, List.nodup_cons]
    rw [Bool.not_eq_true', ← Bool.not_eq_true (xs.contains x)]
    constructor
    · intro h
      exact ⟨fun hm => h.1 (List.elem_iff.mpr hm), h.2⟩
    · intro h
      exact ⟨fun hc => h.1 (List.elem_iff.mp hc), h.2⟩

theorem dirNames_replace (d : List Char) (node : TreeNode)
    (rest : List (List Char)) :
    ∀ l : List TreeNode,
      dirNamesOf (replaceFirstDir d (fun child => insertSegs child node rest) l)
        = dirNamesOf l ∨
      (dirNamesOf (replaceFirstDir d (fun child => insertSegs child node rest) l)
          = dirNamesOf l ++ [String.mk d] ∧
        String.mk d ∉ dirNamesOf l) := by
  intro l
  induction l with
  | nil =>
    right
    obtain ⟨ch', hch⟩ :=
      insertSegs_shell rest (String.mk d) .dir none none [] node
    rw [replaceFirstDir, hch]
    constructor
    · rw [dirNamesOf_cons]
      simp [dirNamesOf, TreeNode.type, TreeNode.name]
    · simp [dirNamesOf]
  | cons x xs ihl =>
    rw [replaceFirstDir]
    by_cases hcond : x.type = NodeType.dir ∧ x.name = String.mk d
    · left
      rw [if_pos hcond]
      cases x with
      | mk xn xty xsz xdp xch =>
        obtain ⟨ch', hch⟩ := insertSegs_shell rest xn xty xsz xdp xch node
        rw [hch, dirNamesOf_cons, dirNamesOf_cons]
        simp [TreeNode.type, TreeNode.name]
    · rw [if_neg hcond]
      rcases ihl with heq | ⟨heq, hnin⟩
      · left
        rw [dirNamesOf_cons, dirNamesOf_cons, heq]
      · right
        rw [dirNamesOf_cons, dirNamesOf_cons, heq]
        by_cases hxd : x.type = NodeType.dir
        · have hxn : String.mk d ≠ x.name := fun h => hcond ⟨hxd, h.symm⟩
          simp [hxd, hxn, hnin]
        · have hb : (x.type == NodeType.dir) = false := by
            simpa using hxd
          simp [hb, hnin]

theorem noDupList_replace (d : List Char) (node : TreeNode)
    (rest : List (List Char))
    (IH : ∀ t : TreeNode, noDupDirs t = true →
      noDupDirs (insertSegs t node rest) = true) :
    ∀ l : List TreeNode, noDupDirsList l = true →
      noDupDirsList
        (replaceFirstDir d (fun child => insertSegs child node rest) l) = true := by
  intro l
  induction l with
  | nil =>
    intro _
    rw [replaceFirstDir, noDupDirsList, noDupDirsList]
    rw [IH (.mk (String.mk d) .dir none none []) rfl]
    rfl
  | cons x xs ihl =>
    intro hl
    rw [noDupDirsList, Bool.and_eq_true] at hl
    rw [replaceFirstDir]
    split
    · rw [noDupDirsList, IH x hl.1, hl.2]
      rfl
    · rw [noDupDirsList, hl.1, ihl hl.2]
      rfl

/-- Inserting a non-`dir` node with internally deduplicated directories keeps
the no-duplicate-sibling-`dir` invariant. -/
theorem insert_noDup : ∀ (segs : List (List Char)) (t node : TreeNode),
    node.type ≠ NodeType.dir → noDupDirs node = true → noDupDirs t = true →
    noDupDirs (insertSegs t node segs) = true
  | [], t, node => fun hty hnode ht => by
    cases t with
    | mk n ty sz dp ch =>
      rw [noDupDirs, Bool.and_eq_true] at ht
      show noDupDirs (.mk n ty sz dp (ch ++ [node])) = true
      rw [noDupDirs, dirNamesOf_append, noDupDirsList_append]
      have hnd : dirNamesOf [node] = [] := by
        rw [dirNamesOf_cons]
        simp_all [dirNamesOf]
      rw [hnd, List.append_nil, ht.1, noDupDirsList, hnode,
        ht.2]
      rfl
  | [s], t, node => fun hty hnode ht => by
    cases t with
    | mk n ty sz dp ch =>
      rw [noDupDirs, Bool.and_eq_true] at ht
      show noDupDirs (.mk n ty sz dp (ch ++ [node])) = true
      rw [noDupDirs, dirNamesOf_append, noDupDirsList_append]
      have hnd : dirNamesOf [node] = [] := by
        rw [dirNamesOf_cons]
        simp_all [dirNamesOf]
      rw [hnd, List.append_nil, ht.1, noDupDirsList, hnode,
        ht.2]
      rfl
  | d :: r :: rs, t, node => fun hty hnode ht => by
    by_cases hd : d = []
    · rw [insertSegs, if_pos hd]
      cases t with
      | mk n ty sz dp ch =>
        rw [noDupDirs, Bool.and_eq_true] at ht
        show noDupDirs (.mk n ty sz dp (ch ++ [node])) = true
        rw [noDupDirs, dirNamesOf_append, noDupDirsList_append]
        have hnd : dirNamesOf [node] = [] := by
          rw [dirNamesOf_cons]
          simp_all [dirNamesOf]
        rw [hnd, List.append_nil, ht.1, noDupDirsList, hnode, ht.2]
        rfl
    · rw [insertSegs, if_neg hd]
      have IH : ∀ t' : TreeNode, noDupDirs t' = true →
          noDupDirs (insertSegs t' node (r :: rs)) = true :=
        fun t' ht' => insert_noDup (r :: rs) t' node hty hnode ht'
      cases t with
      | mk n ty sz dp ch =>
        rw [noDupDirs, Bool.and_eq_true] at ht
        show noDupDirs (.mk n ty sz dp _) = true
        rw [noDupDirs]
        simp only [TreeNode.children]
        have hlist := noDupList_replace d node (r :: rs) IH ch ht.2
        rcases dirNames_replace d node (r :: rs) ch with heq | ⟨heq, hnin⟩
        · rw [heq, ht.1, hlist]
          rfl
        · rw [heq, hlist, Bool.and_true]
          rw [distinctB_iff_nodup] at ht ⊢
          simp [List.nodup_append, ht.1, hnin]
  termination_by segs => segs.length

mutual

theorem nodePres_refl : ∀ t : TreeNode, NodePres t t
  | .mk n ty sz dp ch => .mk n ty sz dp ch ch (childPres_refl ch)

theorem childPres_refl : ∀ l : List TreeNode, ChildPres l l
  | [] => .nil []
  | x :: xs => .cons x x xs xs (nodePres_refl x) (childPres_refl xs)

end

theorem childPres_append (l m : List TreeNode) : ChildPres l (l ++ m) := by
  induction l with
  | nil => exact .nil m
  | cons x xs ih => exact .cons x x xs (xs ++ m) (nodePres_refl x) ih

mutual

theorem nodePres_trans : ∀ {a b c : TreeNode},
    NodePres a b → NodePres b c → NodePres a c
  | _, _, _, .mk n ty sz dp ch ch₁ h1, .mk _ _ _ _ _ ch₂ h2 =>
    .mk n ty sz dp ch ch₂ (childPres_trans h1 h2)

theorem childPres_trans : ∀ {l m k : List TreeNode},
    ChildPres l m → ChildPres m k → ChildPres l k
  | _, _, _, .nil _, _ => .nil _
  | _, _, _, .cons x x' xs xs' hx hxs, .cons _ x'' _ xs'' hx' hxs' =>
    .cons x x'' xs xs'' (nodePres_trans hx hx') (childPres_trans hxs hxs')

end

theorem childPres_replace (d : List Char) (node : TreeNode)
    (rest : List (List Char))
    (IH : ∀ t : TreeNode, NodePres t (insertSegs t node rest)) :
    ∀ l : List TreeNode,
      ChildPres l
        (replaceFirstDir d (fun child => insertSegs child node rest) l) := by
  intro l
  induction l with
  | nil => exact .nil _
  | cons x xs ihl =>
    rw [replaceFirstDir]
    split
    · exact .cons x _ xs xs (IH x) (childPres_refl xs)
    · exact .cons x x xs _ (nodePres_refl x) ihl

/-- Insertion preserves every existing node in place; new siblings are only
appended. -/
theorem insert_pres : ∀ (segs : List (List Char)) (t node : TreeNode),
    NodePres t (insertSegs t node segs)
  | [], .mk n ty sz dp ch, node =>
    .mk n ty sz dp ch (ch ++ [node]) (childPres_append ch [node])
  | [_], .mk n ty sz dp ch, node =>
    .mk n ty sz dp ch (ch ++ [node]) (childPres_append ch [node])
  | d :: r :: rs, .mk n ty sz dp ch, node => by
    rw [insertSegs]
    split
    · exact .mk n ty sz dp ch (ch ++ [node]) (childPres_append ch [node])
    · show NodePres (.mk n ty sz dp ch)
        (TreeNode.mk n ty sz dp
          (replaceFirstDir d (fun child => insertSegs child node (r :: rs)) ch))
      exact .mk n ty sz dp ch _
        (childPres_replace d node (r :: rs)
          (fun t' => insert_pres (r :: rs) t' node) ch)

/-- Claim C6 (confirmed): after any sequence of insertions of non-`dir` nodes
(themselves free of duplicate sibling `dir`s) into a tree without duplicate
sibling `dir`s, no node of the result has two sibling `dir` children with the
same name — each directory segment is materialized once however many files
share it — and every pre-existing node and sibling position is preserved in
place, new siblings being appended only: sibling order reflects first
encounter. -/
theorem C6_dir_dedup :
    ∀ (inserts : List (TreeNode × String)) (t₀ : TreeNode),
      noDupDirs t₀ = true →
      (∀ i ∈ inserts, i.1.type ≠ NodeType.dir ∧ noDupDirs i.1 = true) →
      noDupDirs (insertAll t₀ inserts) = true ∧
        NodePres t₀ (insertAll t₀ inserts)
  | [], t₀, h, _ => ⟨h, nodePres_refl t₀⟩
  | i :: is, t₀, h, hins => by
    obtain ⟨hty, hnd⟩ := hins i (List.mem_cons_self i is)
    have h1 : noDupDirs (insertFileNode t₀ i.1 i.2) = true :=
      insert_noDup (splitChar i.2.toList) t₀ i.1 hty hnd h
    have hrec := C6_dir_dedup is (insertFileNode t₀ i.1 i.2) h1
      (fun j hj => hins j (List.mem_cons_of_mem i hj))
    exact ⟨hrec.1, nodePres_trans (insert_pres _ t₀ i.1) hrec.2⟩

/-- Claim C6 (witness): three files, two sharing the `src` prefix and one in
`src/util`, inserted into an empty root. -/
theorem C6_witness :
    noDupDirs (insertAll (.mk "proj" .program none none [])
      [(TreeNode.mk "a.ts" .file (some 1) (some []) [], "src/a.ts"),
       (TreeNode.mk "b.ts" .file (some 2) (some []) [], "src/util/b.ts"),
       (TreeNode.mk "c.ts" .file (some 3) (some []) [], "src/c.ts")]) = true ∧
    NodePres (.mk "proj" .program none none [])
      (insertAll (.mk "proj" .program none none [])
        [(TreeNode.mk "a.ts" .file (some 1) (some []) [], "src/a.ts"),
         (TreeNode.mk "b.ts" .file (some 2) (some []) [], "src/util/b.ts"),
         (TreeNode.mk "c.ts" .file (some 3) (some []) [], "src/c.ts")]) :=
  C6_dir_dedup
    [(TreeNode.mk "a.ts" .file (some 1) (some []) [], "src/a.ts"),
     (TreeNode.mk "b.ts" .file (some 2) (some []) [], "src/util/b.ts"),
     (TreeNode.mk "c.ts" .file (some 3) (some []) [], "src/c.ts")]
    (.mk "proj" .program none none []) (by decide) (by decide)

/-! ## Lemmas on the project-graph walk (claims C8, C10) -/

theorem refsFold_mono
    (rec : String → List String →
      Option (Option TreeNode × List String × List String))
    (hrec : ∀ r v res, rec r v = some res → res.2.1 = v ++ res.2.2) :
    ∀ (refs : List String) (t : TreeNode) (v : List String) res,
      refsFold rec refs t v = some res → res.2.1 = v ++ res.2.2
  | [], t, v, res => by
    intro h
    rw [refsFold] at h
    injection h with h
    subst h
    simp
  | r :: rs, t, v, res => by
    intro h
    rw [refsFold] at h
    split at h
    · exact absurd h (by simp)
    next sub v₁ m₁ hr =>
      split at h
      · exact absurd h (by simp)
      next t₂ v₂ m₂ hf =>
        injection h with h
        subst h
        have h1 := hrec r v (sub, v₁, m₁) hr
        have h2 := refsFold_mono rec hrec rs _ v₁ (t₂, v₂, m₂) hf
        simp only at h1 h2 ⊢
        rw [h2, h1, List.append_assoc]

theorem batchesFold_mono
    (fileStep : TreeNode → List String → TreeNode)
    (refStep : TreeNode → List String →
      Option (TreeNode × List String × List String))
    (href : ∀ t v res, refStep t v = some res → res.2.1 = v ++ res.2.2) :
    ∀ (bs : List (List String)) (t : TreeNode) (v : List String) res,
      batchesFold fileStep refStep bs t v = some res → res.2.1 = v ++ res.2.2
  | [], t, v, res => by
    intro h
    rw [batchesFold] at h
    injection h with h
    subst h
    simp
  | b :: bs, t, v, res => by
    intro h
    rw [batchesFold] at h
    split at h
    · exact absurd h (by simp)
    next t₂ v₂ m₁ hr =>
      split at h
      · exact absurd h (by simp)
      next t₃ v₃ m₂ hf =>
        injection h with h
        subst h
        have h1 := href _ v (t₂, v₂, m₁) hr
        have h2 := batchesFold_mono fileStep refStep href bs _ v₂ (t₃, v₃, m₂) hf
        simp only at h1 h2 ⊢
        rw [h2, h1, List.append_assoc]

theorem parse_mono (c : Cargs) (w : World) :
    ∀ (fuel : Nat) (d : String) (v : List String) res,
      parseTsProjectF c w fuel d v = some res → res.2.1 = v ++ res.2.2
  | 0, d, v, res => by intro h; exact absurd h (by simp [parseTsProjectF])
  | fuel + 1, d, v, res => by
    intro h
    rw [parseTsProjectF] at h
    split at h
    · injection h with h
      subst h
      simp
    · dsimp only at h
      split at h
      · exact absurd h (by simp)
      next t' v' m hb =>
        injection h with h
        subst h
        have h1 := batchesFold_mono _ _
          (fun r v res hr => refsFold_mono _
            (fun r' v' res' hr' => parse_mono c w fuel r' v' res' hr') _ _ _ _ hr)
          _ _ _ _ hb
        simp only at h1 ⊢
        rw [h1, List.append_assoc]
        rfl

theorem contains_iff (a : String) (l : List String) :
    l.contains a = true ↔ a ∈ l :=
  List.elem_iff

theorem filter_length_le {α : Type} (p q : α → Bool)
    (himp : ∀ a, q a = true → p a = true) :
    ∀ l : List α, (l.filter q).length ≤ (l.filter p).length
  | [] => Nat.le_refl 0
  | x :: xs => by
    have ih := filter_length_le p q himp xs
    rw [List.filter_cons, List.filter_cons]
    by_cases hq : q x = true
    · rw [if_pos hq, if_pos (himp x hq)]
      simpa using ih
    · rw [if_neg hq]
      split
      · exact le_trans ih (by simp)
      · exact ih

theorem contains_append_imp (v m : List String) (a : String)
    (ha : (v ++ m).contains a = false) : v.contains a = false := by
  cases hva : v.contains a with
  | false => rfl
  | true =>
    rw [(contains_iff a (v ++ m)).mpr
      (List.mem_append_left m ((contains_iff a v).mp hva))] at ha
    exact ha

theorem unvisited_append_le (w : World) (v m : List String) :
    unvisitedKeys w (v ++ m) ≤ unvisitedKeys w v := by
  apply filter_length_le
  intro a ha
  rw [Bool.not_eq_true'] at ha ⊢
  exact contains_append_imp v m a ha

theorem filter_unvisited_lt (v : List String) (pd : String)
    (hv : v.contains pd = false) :
    ∀ L : List String, pd ∈ L →
      (L.filter (fun a => !((v ++ [pd]).contains a))).length
        < (L.filter (fun a => !(v.contains a))).length
  | [], h => absurd h (List.not_mem_nil pd)
  | k :: L', h => by
    have hmono : ∀ a : String,
        (!((v ++ [pd]).contains a)) = true → (!(v.contains a)) = true := by
      intro a ha
      rw [Bool.not_eq_true'] at ha ⊢
      exact contains_append_imp v [pd] a ha
    rw [List.filter_cons, List.filter_cons]
    by_cases hk : k = pd
    · have h1 : ((v ++ [pd]).contains k) = true :=
        (contains_iff k (v ++ [pd])).mpr
          (List.mem_append_right v (by rw [hk]; exact List.mem_singleton.mpr rfl))
      have h2 : v.contains k = false := by rw [hk]; exact hv
      rw [h1, h2]
      simp only [Bool.not_true, Bool.not_false, Bool.false_eq_true, if_false,
        if_true, List.length_cons]
      have hle := filter_length_le (fun a => !(v.contains a))
        (fun a => !((v ++ [pd]).contains a)) hmono L'
      omega
    · have hpd : pd ∈ L' := by
        rcases List.mem_cons.mp h with h1 | h1
        · exact absurd h1.symm hk
        · exact h1
      have heq : ((v ++ [pd]).contains k) = (v.contains k) := by
        cases hvk : v.contains k with
        | true =>
          exact (contains_iff k (v ++ [pd])).mpr
            (List.mem_append_left _ ((contains_iff k v).mp hvk))
        | false =>
          cases hvk2 : (v ++ [pd]).contains k with
          | false => rfl
          | true =>
            rcases List.mem_append.mp ((contains_iff k (v ++ [pd])).mp hvk2)
              with h2 | h2
            · rw [(contains_iff k v).mpr h2] at hvk
              exact hvk
            · exact absurd (List.mem_singleton.mp h2) hk
      rw [heq]
      have ih := filter_unvisited_lt v pd hv L' hpd
      split
      · simpa using ih
      · exact ih

theorem unvisited_lt (w : World) (v : List String) (pd : String)
    (hk : pd ∈ worldKeys w) (hv : v.contains pd = false) :
    unvisitedKeys w (v ++ [pd]) < unvisitedKeys w v :=
  filter_unvisited_lt v pd hv (worldKeys w) hk

theorem unvisited_pos (w : World) (v : List String) (pd : String)
    (hk : pd ∈ worldKeys w) (hv : v.contains pd = false) :
    1 ≤ unvisitedKeys w v := by
  have hm : pd ∈ (worldKeys w).filter (fun a => !(v.contains a)) :=
    List.mem_filter.mpr ⟨hk, by rw [hv]; rfl⟩
  exact List.length_pos.mpr (List.ne_nil_of_mem hm)

theorem lookup_none_of_not_mem (pd : String) :
    ∀ l : List (String × ConfigFile), pd ∉ l.map Prod.fst → l.lookup pd = none
  | [] => fun _ => rfl
  | (a, b) :: es => fun h => by
    rw [List.lookup]
    have hne : pd ≠ a := fun he => h (by simp [he])
    rw [beq_eq_false_iff_ne.mpr hne]
    exact lookup_none_of_not_mem pd es (fun hm => h (by simp [hm]))

theorem refsFold_isSome (w : World)
    (rec : String → List String →
      Option (Option TreeNode × List String × List String)) (K : Nat)
    (hm : ∀ r v res, rec r v = some res → res.2.1 = v ++ res.2.2)
    (hS : ∀ r v, unvisitedKeys w v ≤ K → (rec r v).isSome = true) :
    ∀ (refs : List String) (t : TreeNode) (v : List String),
      unvisitedKeys w v ≤ K → (refsFold rec refs t v).isSome = true
  | [], t, v => fun _ => rfl
  | r :: rs, t, v => fun hv => by
    rw [refsFold]
    have h1 := hS r v hv
    cases hr : rec r v with
    | none => rw [hr] at h1; exact absurd h1 (by simp)
    | some res =>
      obtain ⟨sub, v₁, m₁⟩ := res
      have hv₁ : unvisitedKeys w v₁ ≤ K := by
        have hm' := hm r v (sub, v₁, m₁) hr
        simp only at hm'
        rw [hm']
        exact le_trans (unvisited_append_le w v m₁) hv
      have h2 := refsFold_isSome w rec K hm hS rs (pushIfSome t sub) v₁ hv₁
      dsimp only
      cases hf : refsFold rec rs (pushIfSome t sub) v₁ with
      | none => rw [hf] at h2; exact absurd h2 (by simp)
      | some res₂ =>
        obtain ⟨t₂, v₂, m₂⟩ := res₂
        rfl

theorem batchesFold_isSome (w : World)
    (fileStep : TreeNode → List String → TreeNode)
    (refStep : TreeNode → List String →
      Option (TreeNode × List String × List String)) (K : Nat)
    (hm : ∀ t v res, refStep t v = some res → res.2.1 = v ++ res.2.2)
    (hS : ∀ t v, unvisitedKeys w v ≤ K → (refStep t v).isSome = true) :
    ∀ (bs : List (List String)) (t : TreeNode) (v : List String),
      unvisitedKeys w v ≤ K → (batchesFold fileStep refStep bs t v).isSome = true
  | [], t, v => fun _ => rfl
  | b :: bs, t, v => fun hv => by
    rw [batchesFold]
    have h1 := hS (fileStep t b) v hv
    cases hr : refStep (fileStep t b) v with
    | none => rw [hr] at h1; exact absurd h1 (by simp)
    | some res =>
      obtain ⟨t₂, v₂, m₁⟩ := res
      have hv₂ : unvisitedKeys w v₂ ≤ K := by
        have hm' := hm (fileStep t b) v (t₂, v₂, m₁) hr
        simp only at hm'
        rw [hm']
        exact le_trans (unvisited_append_le w v m₁) hv
      have h2 := batchesFold_isSome w fileStep refStep K hm hS bs t₂ v₂ hv₂
      dsimp only
      cases hf : batchesFold fileStep refStep bs t₂ v₂ with
      | none => rw [hf] at h2; exact absurd h2 (by simp)
      | some res₂ =>
        obtain ⟨t₃, v₃, m₂⟩ := res₂
        rfl

theorem parse_isSome (c : Cargs) (w : World) :
    ∀ (fuel : Nat) (d : String) (v : List String),
      unvisitedKeys w v < fuel → (parseTsProjectF c w fuel d v).isSome = true
  | 0, d, v => fun h => absurd h (by omega)
  | fuel + 1, d, v => fun h => by
    rw [parseTsProjectF]
    by_cases hc : v.contains (normalizeDir d) = true
    · rw [if_pos hc]
      rfl
    · rw [if_neg hc]
      dsimp only
      have hcf : v.contains (normalizeDir d) = false := by
        cases hx : v.contains (normalizeDir d) with
        | false => rfl
        | true => exact absurd hx hc
      have hmono : ∀ r v' res, parseTsProjectF c w fuel r v' = some res →
          res.2.1 = v' ++ res.2.2 :=
        fun r v' res hr => parse_mono c w fuel r v' res hr
      have hrefmono : ∀ (refs : List String) t v' res,
          refsFold (parseTsProjectF c w fuel) refs t v' = some res →
          res.2.1 = v' ++ res.2.2 :=
        fun refs t v' res hr => refsFold_mono _ hmono refs t v' res hr
      by_cases hk : normalizeDir d ∈ worldKeys w
      · have hlt := unvisited_lt w v (normalizeDir d) hk hcf
        have hpos := unvisited_pos w v (normalizeDir d) hk hcf
        have hS : ∀ r v', unvisitedKeys w v' ≤ fuel - 1 →
            (parseTsProjectF c w fuel r v').isSome = true := by
          intro r v' hv'
          exact parse_isSome c w fuel r v' (by omega)
        have hb := batchesFold_isSome w (processBatchFiles c w (normalizeDir d))
          (refsFold (parseTsProjectF c w fuel)
            (parseTsConfig w (normalizeDir d)).projectReferences) (fuel - 1)
          (hrefmono (parseTsConfig w (normalizeDir d)).projectReferences)
          (fun t' v' hv' => refsFold_isSome w (parseTsProjectF c w fuel)
            (fuel - 1) hmono hS
            (parseTsConfig w (normalizeDir d)).projectReferences t' v' hv')
          (chunksOf BATCH_FILES (parseTsConfig w (normalizeDir d)).fileNames)
          (TreeNode.mk (projName (normalizeDir d)) .program none none [])
          (v ++ [normalizeDir d]) (by omega)
        cases hbb : batchesFold (processBatchFiles c w (normalizeDir d))
            (refsFold (parseTsProjectF c w fuel)
              (parseTsConfig w (normalizeDir d)).projectReferences)
            (chunksOf BATCH_FILES (parseTsConfig w (normalizeDir d)).fileNames)
            (TreeNode.mk (projName (normalizeDir d)) .program none none [])
            (v ++ [normalizeDir d]) with
        | none => rw [hbb] at hb; exact absurd hb (by simp)
        | some res =>
          obtain ⟨t', v', m⟩ := res
          rfl
      · have hlk : w.configs.lookup (normalizeDir d) = none :=
          lookup_none_of_not_mem (normalizeDir d) w.configs hk
        have hrefs : (parseTsConfig w (normalizeDir d)).projectReferences = [] := by
          unfold parseTsConfig
          rw [hlk]
          rfl
        rw [hrefs]
        have hb := batchesFold_isSome w (processBatchFiles c w (normalizeDir d))
          (refsFold (parseTsProjectF c w fuel) [])
          (unvisitedKeys w (v ++ [normalizeDir d]))
          (hrefmono [])
          (fun t' v' _ => rfl)
          (chunksOf BATCH_FILES (parseTsConfig w (normalizeDir d)).fileNames)
          (TreeNode.mk (projName (normalizeDir d)) .program none none [])
          (v ++ [normalizeDir d]) le_rfl
        cases hbb : batchesFold (processBatchFiles c w (normalizeDir d))
            (refsFold (parseTsProjectF c w fuel) [])
            (chunksOf BATCH_FILES (parseTsConfig w (normalizeDir d)).fileNames)
            (TreeNode.mk (projName (normalizeDir d)) .program none none [])
            (v ++ [normalizeDir d]) with
        | none => rw [hbb] at hb; exact absurd hb (by simp)
        | some res =>
          obtain ⟨t', v', m⟩ := res
          rfl

theorem refsFold_nodup
    (rec : String → List String →
      Option (Option TreeNode × List String × List String))
    (hN : ∀ r v res, v.Nodup → rec r v = some res → res.2.1.Nodup) :
    ∀ (refs : List String) (t : TreeNode) (v : List String) res,
      v.Nodup → refsFold rec refs t v = some res → res.2.1.Nodup
  | [], t, v, res => fun hv h => by
    rw [refsFold] at h
    injection h with h
    subst h
    exact hv
  | r :: rs, t, v, res => fun hv h => by
    rw [refsFold] at h
    split at h
    · exact absurd h (by simp)
    next sub v₁ m₁ hr =>
      split at h
      · exact absurd h (by simp)
      next t₂ v₂ m₂ hf =>
        injection h with h
        subst h
        exact refsFold_nodup rec hN rs _ v₁ (t₂, v₂, m₂)
          (hN r v (sub, v₁, m₁) hv hr) hf

theorem batchesFold_nodup
    (fileStep : TreeNode → List String → TreeNode)
    (refStep : TreeNode → List String →
      Option (TreeNode × List String × List String))
    (hN : ∀ t v res, v.Nodup → refStep t v = some res → res.2.1.Nodup) :
    ∀ (bs : List (List String)) (t : TreeNode) (v : List String) res,
      v.Nodup → batchesFold fileStep refStep bs t v = some res → res.2.1.Nodup
  | [], t, v, res => fun hv h => by
    rw [batchesFold] at h
    injection h with h
    subst h
    exact hv
  | b :: bs, t, v, res => fun hv h => by
    rw [batchesFold] at h
    split at h
    · exact absurd h (by simp)
    next t₂ v₂ m₁ hr =>
      split at h
      · exact absurd h (by simp)
      next t₃ v₃ m₂ hf =>
        injection h with h
        subst h
        exact batchesFold_nodup fileStep refStep hN bs t₂ v₂ (t₃, v₃, m₂)
          (hN _ v (t₂, v₂, m₁) hv hr) hf

theorem parse_nodup (c : Cargs) (w : World) :
    ∀ (fuel : Nat) (d : String) (v : List String) res,
      v.Nodup → parseTsProjectF c w fuel d v = some res → res.2.1.Nodup
  | 0, d, v, res => fun _ h => absurd h (by simp [parseTsProjectF])
  | fuel + 1, d, v, res => fun hv h => by
    rw [parseTsProjectF] at h
    split at h
    · injection h with h
      subst h
      exact hv
    next hgu =>
      dsimp only at h
      split at h
      · exact absurd h (by simp)
      next t' v' m hb =>
        injection h with h
        subst h
        have hnin : normalizeDir d ∉ v :=
          fun hmem => hgu ((contains_iff _ v).mpr hmem)
        have hv₁ : (v ++ [normalizeDir d]).Nodup := by
          simp [List.nodup_append, hv, hnin]
        exact batchesFold_nodup _ _
          (fun t'' v'' res'' hvn hr => refsFold_nodup _
            (fun r' v₃ res₃ hv₃ hr₃ => parse_nodup c w fuel r' v₃ res₃ hv₃ hr₃)
            _ _ _ _ hvn hr)
          _ _ _ (t', v', m) hv₁ hb

/-- Claim C8 (confirmed): for every world — in particular every cyclic
reference graph — the project-graph walk completes within
`unvisitedKeys w [] + 1` fuel (it terminates); across a whole run starting
from an empty visited set, the ghost log of materialized project directories
never repeats a directory (each subtree is produced at most once); and on the
concrete two-project cycle `wCyc` (`/a` references `/b`, `/b` references
`/a`) each of the two projects is materialized exactly once. -/
theorem C8_cycle_safety :
    (∀ (c : Cargs) (w : World) (dir : String),
      (parseTsProjectF c w (unvisitedKeys w [] + 1) dir []).isSome = true) ∧
    (∀ (c : Cargs) (w : World) (fuel : Nat) (dir : String)
      (x : Option TreeNode) (v m : List String),
      parseTsProjectF c w fuel dir [] = some (x, v, m) → m.Nodup) ∧
    parseTsProjectF cargsD wCyc 3 "/a" []
      = some (some tCyc, ["/a/", "/b/"], ["/a/", "/b/"]) := by
  refine ⟨?_, ?_, rfl⟩
  · intro c w dir
    exact parse_isSome c w (unvisitedKeys w [] + 1) dir [] (by omega)
  · intro c w fuel dir x v m h
    have hmono := parse_mono c w fuel dir [] (x, v, m) h
    have hnod := parse_nodup c w fuel dir [] (x, v, m) List.nodup_nil h
    simp only at hmono hnod
    rw [hmono] at hnod
    simpa using hnod

/-- Claim C8 (witness): the theorem applied to the cyclic world `wCyc` — the
walk completes and the materialization log `["/a/", "/b/"]` has no
duplicates. -/
theorem C8_witness :
    (parseTsProjectF cargsD wCyc (unvisitedKeys wCyc [] + 1) "/a" []).isSome
        = true ∧
    (["/a/", "/b/"] : List String).Nodup :=
  ⟨C8_cycle_safety.1 cargsD wCyc "/a",
   C8_cycle_safety.2.1 cargsD wCyc 3 "/a" (some tCyc) ["/a/", "/b/"]
     ["/a/", "/b/"] rfl⟩

theorem sameShell_refl (t : TreeNode) : sameShell t t := ⟨rfl, rfl, rfl, rfl⟩

theorem sameShell_trans {a b c : TreeNode} (h1 : sameShell a b)
    (h2 : sameShell b c) : sameShell a c :=
  ⟨h2.1.trans h1.1, h2.2.1.trans h1.2.1, h2.2.2.1.trans h1.2.2.1,
   h2.2.2.2.trans h1.2.2.2⟩

theorem pushChild_shell (t s : TreeNode) : sameShell t (pushChild t s) := by
  cases t
  exact ⟨rfl, rfl, rfl, rfl⟩

theorem pushIfSome_shell (t : TreeNode) : ∀ sub : Option TreeNode,
    sameShell t (pushIfSome t sub)
  | some s => pushChild_shell t s
  | none => sameShell_refl t

theorem insertFileNode_shell (t n : TreeNode) (p : String) :
    sameShell t (insertFileNode t n p) := by
  cases t with
  | mk nm ty sz dp ch =>
    obtain ⟨ch', hch⟩ := insertSegs_shell (splitChar p.toList) nm ty sz dp ch n
    rw [insertFileNode, hch]
    exact ⟨rfl, rfl, rfl, rfl⟩

theorem foldl_insert_shell :
    ∀ (L : List (TreeNode × String)) (t : TreeNode),
      sameShell t (L.foldl (fun tr i => insertFileNode tr i.1 i.2) t)
  | [], t => sameShell_refl t
  | i :: is, t => by
    rw [List.foldl_cons]
    exact sameShell_trans (insertFileNode_shell t i.1 i.2)
      (foldl_insert_shell is (insertFileNode t i.1 i.2))

theorem processBatchFiles_shell (c : Cargs) (w : World) (pd : String)
    (t : TreeNode) (batch : List String) :
    sameShell t (processBatchFiles c w pd t batch) :=
  foldl_insert_shell (batchFileNodes c w pd batch) t

theorem refsFold_shell
    (rec : String → List String →
      Option (Option TreeNode × List String × List String)) :
    ∀ (refs : List String) (t : TreeNode) (v : List String) res,
      refsFold rec refs t v = some res → sameShell t res.1
  | [], t, v, res => fun h => by
    rw [refsFold] at h
    injection h with h
    subst h
    exact sameShell_refl t
  | r :: rs, t, v, res => fun h => by
    rw [refsFold] at h
    split at h
    · exact absurd h (by simp)
    next sub v₁ m₁ hr =>
      split at h
      · exact absurd h (by simp)
      next t₂ v₂ m₂ hf =>
        injection h with h
        subst h
        exact sameShell_trans (pushIfSome_shell t sub)
          (refsFold_shell rec rs (pushIfSome t sub) v₁ (t₂, v₂, m₂) hf)

theorem batchesFold_shell
    (fileStep : TreeNode → List String → TreeNode)
    (refStep : TreeNode → List String →
      Option (TreeNode × List String × List String))
    (hfs : ∀ t b, sameShell t (fileStep t b))
    (hrs : ∀ t v res, refStep t v = some res → sameShell t res.1) :
    ∀ (bs : List (List String)) (t : TreeNode) (v : List String) res,
      batchesFold fileStep refStep bs t v = some res → sameShell t res.1
  | [], t, v, res => fun h => by
    rw [batchesFold] at h
    injection h with h
    subst h
    exact sameShell_refl t
  | b :: bs, t, v, res => fun h => by
    rw [batchesFold] at h
    split at h
    · exact absurd h (by simp)
    next t₂ v₂ m₁ hr =>
      split at h
      · exact absurd h (by simp)
      next t₃ v₃ m₂ hf =>
        injection h with h
        subst h
        exact sameShell_trans (hfs t b)
          (sameShell_trans (hrs (fileStep t b) v (t₂, v₂, m₁) hr)
            (batchesFold_shell fileStep refStep hfs hrs bs t₂ v₂ (t₃, v₃, m₂) hf))

theorem splitChar_append_slash : ∀ l : List Char,
    splitChar (l ++ ['/']) = splitChar l ++ [[]]
  | [] => rfl
  | c :: cs => by
    have ih := splitChar_append_slash cs
    have hne := splitChar_ne_nil cs
    rw [List.cons_append, splitChar, splitChar, ih]
    split
    · rfl
    · match hr : splitChar cs with
      | [] => exact absurd hr hne
      | x :: xs => rfl

theorem getLastD_irrel (l : List (List Char)) (a b : List Char)
    (h : l ≠ []) : l.getLastD a = l.getLastD b := by
  rw [List.getLastD_eq_getLast?, List.getLastD_eq_getLast?]
  cases hx : l.getLast? with
  | some y => rfl
  | none =>
    rw [List.getLast?_eq_none_iff] at hx
    exact absurd hx h

theorem getD_last : ∀ (P : List (List Char)), P ≠ [] →
    P.getD (P.length - 1) [] = P.getLastD []
  | [], h => absurd rfl h
  | [x], _ => rfl
  | x :: y :: ys, _ => by
    have ih := getD_last (y :: ys) (by simp)
    have hlen : (x :: y :: ys).length - 1 = ((y :: ys).length - 1) + 1 := by
      simp
    rw [hlen, List.getD_cons_succ, ih, List.getLastD_eq_getLast?,
      List.getLastD_eq_getLast?, List.getLast?_cons_cons]

theorem getD_append_left : ∀ (P Q : List (List Char)) (i : Nat),
    i < P.length → (P ++ Q).getD i [] = P.getD i []
  | [], _, i, h => by simp at h
  | x :: xs, Q, 0, _ => rfl
  | x :: xs, Q, i + 1, h => by
    rw [List.cons_append, List.getD_cons_succ, List.getD_cons_succ]
    exact getD_append_left xs Q i (by simpa using h)

theorem last_of_append_getD (P : List (List Char)) (hP : P ≠ []) :
    (P ++ [[]]).getD ((P ++ [[]]).length - 2) [] = P.getLastD [] := by
  have hpos : 1 ≤ P.length := List.length_pos.mpr hP
  have hlen : (P ++ [[]]).length - 2 = P.length - 1 := by
    simp
  rw [hlen, getD_append_left P [[]] (P.length - 1) (by omega), getD_last P hP]

theorem normalizeDir_toList (s : String) :
    ∃ m : List Char, (normalizeDir s).toList = m ++ ['/'] := by
  unfold normalizeDir
  split
  next hlast =>
    have hne : s.toList ≠ [] := by
      intro h
      rw [h] at hlast
      simp at hlast
    refine ⟨s.toList.dropLast, ?_⟩
    have := List.dropLast_append_getLast hne
    rw [List.getLast?_eq_getLast s.toList hne] at hlast
    injection hlast with hlast
    rw [hlast] at this
    exact this.symm
  · exact ⟨s.toList, rfl⟩

theorem projName_spec (s : String) :
    projName (normalizeDir s) = specLastSegment (normalizeDir s) := by
  obtain ⟨m, hm⟩ := normalizeDir_toList s
  unfold projName specLastSegment
  dsimp only
  rw [hm, splitChar_append_slash, List.dropLast_concat,
    last_of_append_getD (splitChar m) (splitChar_ne_nil m)]

/-- Claim C10 (confirmed): for every project directory whose normalization is
not yet visited (and enough fuel, which `parse_isSome` guarantees exists), the
walk returns a non-null tree whose root has type `program`, carries no `size`
or `deps` (its children list is the only populated part, starting empty and
staying empty when the project has no files), and whose name is the last path
segment of the trailing-slash-normalized directory. -/
theorem C10_root_shape :
    ∀ (c : Cargs) (w : World) (dir : String) (visited : List String)
      (fuel : Nat),
      visited.contains (normalizeDir dir) = false →
      unvisitedKeys w visited < fuel →
      ∃ t v' m, parseTsProjectF c w fuel dir visited = some (some t, v', m) ∧
        t.type = NodeType.program ∧
        t.name = specLastSegment (normalizeDir dir) ∧
        t.size = none ∧ t.deps = none ∧
        ((parseTsConfig w (normalizeDir dir)).fileNames = [] →
          t.children = []) := by
  intro c w dir visited fuel hv hf
  have hs := parse_isSome c w fuel dir visited hf
  cases fuel with
  | zero => omega
  | succ n =>
    rw [parseTsProjectF] at hs
    rw [if_neg (by rw [hv]; simp)] at hs
    dsimp only at hs
    cases hb : batchesFold (processBatchFiles c w (normalizeDir dir))
        (refsFold (parseTsProjectF c w n)
          (parseTsConfig w (normalizeDir dir)).projectReferences)
        (chunksOf BATCH_FILES (parseTsConfig w (normalizeDir dir)).fileNames)
        (TreeNode.mk (projName (normalizeDir dir)) .program none none [])
        (visited ++ [normalizeDir dir]) with
    | none => rw [hb] at hs; simp at hs
    | some res =>
      obtain ⟨t', v', m⟩ := res
      have hshell := batchesFold_shell
        (processBatchFiles c w (normalizeDir dir))
        (refsFold (parseTsProjectF c w n)
          (parseTsConfig w (normalizeDir dir)).projectReferences)
        (fun t b => processBatchFiles_shell c w (normalizeDir dir) t b)
        (fun t v res h => refsFold_shell _ _ t v res h)
        _ _ _ (t', v', m) hb
      refine ⟨t', v', normalizeDir dir :: m, ?_, ?_, ?_, ?_, ?_, ?_⟩
      · rw [parseTsProjectF]
        rw [if_neg (by rw [hv]; simp)]
        dsimp only
        rw [hb]
      · rw [hshell.2.1]
        rfl
      · rw [hshell.1]
        exact projName_spec dir
      · rw [hshell.2.2.1]
        rfl
      · rw [hshell.2.2.2]
        rfl
      · intro hfn
        rw [hfn] at hb
        rw [show chunksOf BATCH_FILES ([] : List String) = [] from rfl] at hb
        rw [batchesFold] at hb
        injection hb with hb
        injection hb with hb1 hb2
        injection hb2 with hb2 hb3
        rw [← hb1]
        rfl

/-- Claim C10 (witness): the directories `/a/b` and `/a/b/` both produce a
non-null `program` root named `b`. -/
theorem C10_witness :
    (∃ t v' m, parseTsProjectF cargsD wEmpty 1 "/a/b" []
        = some (some t, v', m) ∧
      t.type = NodeType.program ∧ t.name = "b") ∧
    (∃ t v' m, parseTsProjectF cargsD wEmpty 1 "/a/b/" []
        = some (some t, v', m) ∧
      t.type = NodeType.program ∧ t.name = "b") := by
  constructor
  · obtain ⟨t, v', m, h1, h2, h3, -, -, -⟩ :=
      C10_root_shape cargsD wEmpty "/a/b" [] 1 (by decide) (by decide)
    exact ⟨t, v', m, h1, h2, by rw [h3]; rfl⟩
  · obtain ⟨t, v', m, h1, h2, h3, -, -, -⟩ :=
      C10_root_shape cargsD wEmpty "/a/b/" [] 1 (by decide) (by decide)
    exact ⟨t, v', m, h1, h2, by rw [h3]; rfl⟩

end TsAst
